import Mathlib

/-!
Shallow embedding of the acornbencode codec (a bencode parser and encoder).

Parsing side (src/parser.rs, src/common.rs, src/integer.rs, src/byte_string.rs,
src/list.rs, src/dictionary.rs): the Rust code parses a byte slice with nom
combinators.  Bytes are modelled as natural numbers, a byte slice as
`List Nat`, and a nom parser `Res<&[u8], T>` as
`List Nat → Option (List Nat × T)` (remainder, value); `none` is a parse
failure.  The mutual recursion of `bencode_value` with `list` and
`dictionary` is bounded by an explicit fuel argument; the top-level entry
points supply fuel `input.length + 1`, which is shown sufficient because each
recursion step first consumes at least one input byte.

Encoding side (src/encoder.rs): `encode_value` appends the canonical bytes of
a value to an output buffer and its `Result` is modelled as `Except`.

Machine integers: `isize`/`usize` are 64-bit; `isize::MAX = 2^63 - 1`,
`usize::MAX = 2^64 - 1`.  `str::parse::<isize>` on a digit string succeeds
exactly when the denoted value is at most `isize::MAX` (the digits are
unsigned, the sign is applied afterwards by `from_integer_digits`).
-/

/-- A nom parser over byte slices: returns the unconsumed remainder and the
parsed value, or `none` on failure. -/
abbrev Parser (α : Type) := List Nat → Option (List Nat × α)

/-- nom `char(c)` specialised to one byte: consumes the first byte when it
equals `c`. -/
def charP (c : Nat) : Parser Nat := fun input =>
  match input with
  | [] => none
  | b :: rest => if b = c then some (rest, c) else none

/-- ASCII decimal digit test (bytes `'0'..'9'`, i.e. 48..57). -/
def isDigitB (b : Nat) : Bool := 48 ≤ b && b ≤ 57

/-- nom `digit1`: consumes the maximal nonempty run of leading ASCII digits;
fails when the input does not start with a digit. -/
def digit1 : Parser (List Nat) := fun input =>
  let ds := input.takeWhile isDigitB
  if ds.isEmpty then none else some (input.dropWhile isDigitB, ds)

/-- The numeric value of an ASCII digit string, as computed by
`str::parse` on a string of decimal digits. -/
def digitsToNat (ds : List Nat) : Nat := ds.foldl (fun acc d => 10 * acc + (d - 48)) 0

/-- `isize::MAX` on a 64-bit platform. -/
def isizeMax : Nat := 2 ^ 63 - 1

/-- `isize::MIN` on a 64-bit platform. -/
def isizeMin : Int := -(2 ^ 63)

/-- `usize::MAX` on a 64-bit platform. -/
def usizeMax : Nat := 2 ^ 64 - 1

/-- `from_integer_digits` from src/integer.rs: given the optional `-` sign and
the digit bytes, checks UTF-8 validity (always true for ASCII digits), rejects
leading zeros and negative zero, parses the digits as `isize` (failing on
overflow, i.e. when the magnitude exceeds `isize::MAX`), and finally applies
the sign. -/
def from_integer_digits (sign : Option Nat) (ds : List Nat) : Option Int :=
  if !(ds.all fun b => decide (b < 128)) then none
  else if 1 < ds.length ∧ ds.head? = some 48 then none
  else if sign.isSome ∧ ds = [48] then none
  else if digitsToNat ds ≤ isizeMax then
    some (match sign with
          | some _ => -(digitsToNat ds : Int)
          | none => (digitsToNat ds : Int))
  else none

/-- nom `opt(p)`: always succeeds, wrapping `p`'s result in an `Option`. -/
def optP (p : Parser α) : Parser (Option α) := fun input =>
  match p input with
  | some (r, a) => some (r, some a)
  | none => some (input, none)

/-- `integer_digits` from src/integer.rs:
`map_res(tuple((opt(char('-')), digit1)), from_integer_digits)`. -/
def integer_digits : Parser Int := fun input =>
  match optP (charP 45) input with
  | some (r1, sgn) =>
    match digit1 r1 with
    | some (r2, ds) =>
      match from_integer_digits sgn ds with
      | some v => some (r2, v)
      | none => none
    | none => none
  | none => none

/-- `integer` from src/integer.rs:
`delimited(char('i'), integer_digits, char('e'))`. -/
def integer : Parser Int := fun input =>
  match charP 105 input with
  | some (r1, _) =>
    match integer_digits r1 with
    | some (r2, v) =>
      match charP 101 r2 with
      | some (r3, _) => some (r3, v)
      | none => none
    | none => none
  | none => none

/-- `parse_length` from src/byte_string.rs:
`map_res(terminated(digit1, char(':')), ...)` — digits then `':'`, with the
UTF-8 check (always true for digits), the leading-zero rejection, and the
`usize` overflow check of `s.parse::<usize>()`. -/
def parse_length : Parser Nat := fun input =>
  match digit1 input with
  | some (r1, ds) =>
    match charP 58 r1 with
    | some (r2, _) =>
      if !(ds.all fun b => decide (b < 128)) then none
      else if 1 < ds.length ∧ ds.head? = some 48 then none
      else if digitsToNat ds ≤ usizeMax then some (r2, digitsToNat ds)
      else none
    | none => none
  | none => none

/-- nom `take(n)`: consumes exactly `n` bytes, failing when fewer remain. -/
def takeP (n : Nat) : Parser (List Nat) := fun input =>
  if n ≤ input.length then some (input.drop n, input.take n) else none

/-- `byte_string` from src/byte_string.rs: parse the length, then take that
many raw bytes. -/
def byte_string : Parser (List Nat) := fun input =>
  match parse_length input with
  | some (r1, n) => takeP n r1
  | none => none

/-- The value model from src/common.rs: `BencodeValue`.  The Rust `Dictionary`
variant holds a `BTreeMap<&[u8], BencodeValue>`, modelled here as an
association list that the map operations keep sorted by strictly ascending
raw-byte-lexicographic key order (the `BTreeMap` representation invariant). -/
inductive BencodeValue where
  | integer : Int → BencodeValue
  | byteString : List Nat → BencodeValue
  | list : List BencodeValue → BencodeValue
  | dict : List (List Nat × BencodeValue) → BencodeValue

/-- Strict byte-lexicographic order on byte strings: the `Ord` instance of
`&[u8]` that `BTreeMap` sorts by. -/
def bytesLt : List Nat → List Nat → Bool
  | [], [] => false
  | [], _ :: _ => true
  | _ :: _, [] => false
  | a :: as, b :: bs => if a < b then true else if a = b then bytesLt as bs else false

/-- `BTreeMap::insert` on the sorted-association-list model: place the new
pair at its ordered position, replacing the value when the key is already
present. -/
def insertKV (k : List Nat) (v : BencodeValue) :
    List (List Nat × BencodeValue) → List (List Nat × BencodeValue)
  | [] => [(k, v)]
  | (k', v') :: rest =>
    if bytesLt k k' then (k, v) :: (k', v') :: rest
    else if k = k' then (k, v) :: rest
    else (k', v') :: insertKV k v rest

/-- `pairs.into_iter().collect::<BTreeMap<_, _>>()` from src/dictionary.rs:
insert the parsed pairs in input order (later occurrences of a key overwrite
earlier ones). -/
def mapFromList (ps : List (List Nat × BencodeValue)) : List (List Nat × BencodeValue) :=
  ps.foldl (fun m kv => insertKV kv.1 kv.2 m) []

/-- `BTreeMap::get`: look a key up in the association-list model. -/
def lookupKV (k : List Nat) : List (List Nat × BencodeValue) → Option BencodeValue
  | [] => none
  | (k', v) :: rest => if k' = k then some v else lookupKV k rest

/-- The value of the last pair with key `k` in a pair list (last-write-wins
semantics of repeated inserts). -/
def lastVal (k : List Nat) : List (List Nat × BencodeValue) → Option BencodeValue
  | [] => none
  | (k', v) :: ps =>
    match lastVal k ps with
    | some w => some w
    | none => if k' = k then some v else none

/-- The `l <values> e` shape shared by the list grammar (src/list.rs):
`delimited(char('l'), <many>, char('e'))`, for a given repetition parser. -/
def listWith (pm : Parser (List BencodeValue)) : Parser (List BencodeValue) := fun input =>
  match charP 108 input with
  | some (r1, _) =>
    match pm r1 with
    | some (r2, vs) =>
      match charP 101 r2 with
      | some (r3, _) => some (r3, vs)
      | none => none
    | none => none
  | none => none

/-- The `d <pairs> e` shape of the dictionary grammar (src/dictionary.rs):
`map(delimited(char('d'), <many pairs>, char('e')), collect)`. -/
def dictWith (pm : Parser (List (List Nat × BencodeValue))) :
    Parser (List (List Nat × BencodeValue)) := fun input =>
  match charP 100 input with
  | some (r1, _) =>
    match pm r1 with
    | some (r2, ps) =>
      match charP 101 r2 with
      | some (r3, _) => some (r3, mapFromList ps)
      | none => none
    | none => none
  | none => none

mutual
/-- `bencode_value` from src/common.rs (identical to `parse_bencode` in
src/parser.rs): `alt((map(integer, Integer), map(byte_string, ByteString),
map(list, List), map(dictionary, Dictionary)))`, with fuel bounding the
recursion depth. -/
def bencodeValueF : Nat → Parser BencodeValue
  | 0, _ => none
  | f + 1, input =>
    match integer input with
    | some (r, i) => some (r, .integer i)
    | none =>
      match byte_string input with
      | some (r, bs) => some (r, .byteString bs)
      | none =>
        match listWith (manyBF f) input with
        | some (r, vs) => some (r, .list vs)
        | none =>
          match dictWith (manyPairF f) input with
          | some (r, ps) => some (r, .dict ps)
          | none => none

/-- nom `many0(bencode_value)` from src/list.rs: repeat until the element
parser fails, returning the input at the failure point; an iteration that
consumes nothing is an error (nom's infinite-loop protection). -/
def manyBF : Nat → Parser (List BencodeValue)
  | 0, _ => none
  | g + 1, input =>
    match bencodeValueF g input with
    | none => some (input, [])
    | some (r1, v) =>
      if r1.length < input.length then
        match manyBF g r1 with
        | some (r2, vs) => some (r2, v :: vs)
        | none => none
      else none

/-- nom `many0(dict_pair)` from src/dictionary.rs, where
`dict_pair = tuple((byte_string, bencode_value))`: repeat key/value pairs
until a pair fails (backtracking to the start of the failed pair). -/
def manyPairF : Nat → Parser (List (List Nat × BencodeValue))
  | 0, _ => none
  | g + 1, input =>
    match byte_string input with
    | none => some (input, [])
    | some (r1, k) =>
      match bencodeValueF g r1 with
      | none => some (input, [])
      | some (r2, v) =>
        if r2.length < input.length then
          match manyPairF g r2 with
          | some (r3, ps) => some (r3, (k, v) :: ps)
          | none => none
        else none
end

/-- `parse_bencode` from src/parser.rs; fuel `input.length + 1` is enough for
every parse the unbounded Rust recursion performs (each level of recursion
consumes at least one byte first). -/
def parse_bencode : Parser BencodeValue := fun input =>
  bencodeValueF (input.length + 1) input

/-- `list` from src/list.rs as a standalone entry point. -/
def list : Parser (List BencodeValue) := fun input =>
  listWith (manyBF (input.length + 1)) input

/-- `dictionary` from src/dictionary.rs as a standalone entry point. -/
def dictionary : Parser (List (List Nat × BencodeValue)) := fun input =>
  dictWith (manyPairF (input.length + 1)) input

/-- Fuel-bounded decimal printing helper (the fuel only bounds the number of
digits; `natDigits` below always supplies enough). -/
def natDigitsAux : Nat → Nat → List Nat
  | 0, _ => []
  | f + 1, n => if n < 10 then [48 + n] else natDigitsAux f (n / 10) ++ [48 + n % 10]

/-- The ASCII decimal digits of `n`, most significant first — Rust
`format!("{}", n)` for an unsigned integer. -/
def natDigits (n : Nat) : List Nat := natDigitsAux (n + 1) n

/-- Rust `format!("{}", i)` for a signed integer: optional `-` then the
digits of the magnitude. -/
def intDigits (i : Int) : List Nat :=
  if i < 0 then 45 :: natDigits i.natAbs else natDigits i.natAbs

mutual
/-- The canonical encoding produced by `encode_value` in src/encoder.rs
(the bytes appended to the output buffer). -/
def encBytes : BencodeValue → List Nat
  | .integer i => 105 :: intDigits i ++ [101]
  | .byteString bs => natDigits bs.length ++ 58 :: bs
  | .list vs => 108 :: encListBytes vs ++ [101]
  | .dict ps => 100 :: encDictBytes ps ++ [101]

def encListBytes : List BencodeValue → List Nat
  | [] => []
  | v :: vs => encBytes v ++ encListBytes vs

def encDictBytes : List (List Nat × BencodeValue) → List Nat
  | [] => []
  | (k, v) :: ps => (natDigits k.length ++ 58 :: k) ++ encBytes v ++ encDictBytes ps
end

/-- `EncodingError` from src/encoder.rs. -/
inductive EncodingError where
  | formatError : EncodingError
  | ioError : EncodingError
  | customError : String → EncodingError
  | utf8Error : EncodingError

mutual
/-- `encode_value` from src/encoder.rs: append the canonical bytes of a value
to the output buffer; every arm returns `Ok`. -/
def encode_value : BencodeValue → List Nat → Except EncodingError (List Nat)
  | .integer i, out => .ok (out ++ 105 :: intDigits i ++ [101])
  | .byteString bs, out => .ok (out ++ (natDigits bs.length ++ 58 :: bs))
  | .list vs, out =>
    match encode_value_items vs (out ++ [108]) with
    | .ok o => .ok (o ++ [101])
    | .error e => .error e
  | .dict ps, out =>
    match encode_value_pairs ps (out ++ [100]) with
    | .ok o => .ok (o ++ [101])
    | .error e => .error e

/-- The `for item in list { encode_value(item, output)? }` loop. -/
def encode_value_items : List BencodeValue → List Nat → Except EncodingError (List Nat)
  | [], out => .ok out
  | v :: vs, out =>
    match encode_value v out with
    | .ok o => encode_value_items vs o
    | .error e => .error e

/-- The `for (key, value) in dict` loop: length-prefixed key bytes, then the
encoded value. -/
def encode_value_pairs :
    List (List Nat × BencodeValue) → List Nat → Except EncodingError (List Nat)
  | [], out => .ok out
  | (k, v) :: ps, out =>
    match encode_value v (out ++ (natDigits k.length ++ 58 :: k)) with
    | .ok o => encode_value_pairs ps o
    | .error e => .error e
end

/-- `encode_to_bytes` from src/encoder.rs. -/
def encode_to_bytes (v : BencodeValue) : Except EncodingError (List Nat) :=
  encode_value v []

/-- UTF-8 decoding of a byte sequence into a list of slots, one per decoded
scalar or per maximal invalid subpart: `some c` is a decoded scalar value,
`none` one ill-formed sequence (what `String::from_utf8_lossy` replaces by a
single U+FFFD).  The case analysis follows Rust's `run_utf8_validation` /
`Utf8Chunks`.  The fuel argument only bounds the number of decoding steps;
each step consumes at least one byte, so fuel equal to the input length (as
supplied by `utf8DecodeAux` below) is always enough. -/
def utf8DecodeAuxF : Nat → List Nat → List (Option Nat)
  | 0, _ => []
  | _, [] => []
  | f + 1, b :: rest =>
    if b < 128 then some b :: utf8DecodeAuxF f rest
    else if b < 194 then none :: utf8DecodeAuxF f rest
    else if b < 224 then
      match rest with
      | c :: rest2 =>
        if 128 ≤ c && c ≤ 191 then
          some ((b - 192) * 64 + (c - 128)) :: utf8DecodeAuxF f rest2
        else none :: utf8DecodeAuxF f rest
      | [] => [none]
    else if b < 240 then
      match rest with
      | c :: rest2 =>
        if (if b = 224 then 160 ≤ c && c ≤ 191
            else if b = 237 then 128 ≤ c && c ≤ 159
            else 128 ≤ c && c ≤ 191) then
          match rest2 with
          | d :: rest3 =>
            if 128 ≤ d && d ≤ 191 then
              some ((b - 224) * 4096 + (c - 128) * 64 + (d - 128)) :: utf8DecodeAuxF f rest3
            else none :: utf8DecodeAuxF f rest2
          | [] => [none]
        else none :: utf8DecodeAuxF f rest
      | [] => [none]
    else if b < 245 then
      match rest with
      | c :: rest2 =>
        if (if b = 240 then 144 ≤ c && c ≤ 191
            else if b = 244 then 128 ≤ c && c ≤ 143
            else 128 ≤ c && c ≤ 191) then
          match rest2 with
          | d :: rest3 =>
            if 128 ≤ d && d ≤ 191 then
              match rest3 with
              | e2 :: rest4 =>
                if 128 ≤ e2 && e2 ≤ 191 then
                  some ((b - 240) * 262144 + (c - 128) * 4096 + (d - 128) * 64 + (e2 - 128)) ::
                    utf8DecodeAuxF f rest4
                else none :: utf8DecodeAuxF f rest3
              | [] => [none]
            else none :: utf8DecodeAuxF f rest2
          | [] => [none]
        else none :: utf8DecodeAuxF f rest
      | [] => [none]
    else none :: utf8DecodeAuxF f rest

/-- UTF-8 decoding with always-sufficient fuel. -/
def utf8DecodeAux (bs : List Nat) : List (Option Nat) := utf8DecodeAuxF bs.length bs

/-- `String::from_utf8_lossy`: the decoded scalar values with each invalid
sequence replaced by U+FFFD (65533). -/
def utf8Lossy (bs : List Nat) : List Nat :=
  (utf8DecodeAux bs).map (fun o => o.getD 65533)

/-- `String::from_utf8` (the strict conversion): succeeds exactly when every
slot decoded, returning the scalar values. -/
def utf8DecodeStrict (bs : List Nat) : Option (List Nat) :=
  if (utf8DecodeAux bs).all Option.isSome then
    some ((utf8DecodeAux bs).map (fun o => o.getD 65533))
  else none

/-- `encode_to_string` from src/encoder.rs: encode to bytes, then strict
UTF-8 conversion, falling back to `Ok` of the lossy conversion when the bytes
are not valid UTF-8.  The produced text is modelled as its list of Unicode
scalar values. -/
def encode_to_string (v : BencodeValue) : Except EncodingError (List Nat) :=
  match encode_to_bytes v with
  | .ok bytes =>
    match utf8DecodeStrict bytes with
    | some s => .ok s
    | none => .ok (utf8Lossy bytes)
  | .error e => .error e

/-- `impl ToBencode for u64` from src/encoder.rs: values above `isize::MAX`
are rejected with a custom error, everything else encodes as an integer. -/
def u64_to_bencode (n : Nat) : Except EncodingError (List Nat) :=
  if isizeMax < n then
    .error (.customError "Integer too large for bencode encoding")
  else encode_to_bytes (.integer (n : Int))

/-- Keys strictly ascending in byte-lexicographic order (the `BTreeMap`
invariant). -/
def keysSortedB : List (List Nat × BencodeValue) → Bool
  | [] => true
  | [_] => true
  | a :: b :: t => bytesLt a.1 b.1 && keysSortedB (b :: t)

mutual
/-- Well-formedness of a modelled value as a value of the Rust types:
integer magnitudes at most `isize::MAX` (so excluding `isize::MIN`, see the
round-trip counterexample), byte-string and key lengths representable in
`usize`, and dictionaries in the sorted `BTreeMap` representation. -/
def wfV : BencodeValue → Bool
  | .integer i => decide (i.natAbs ≤ isizeMax)
  | .byteString bs => decide (bs.length ≤ usizeMax)
  | .list vs => wfL vs
  | .dict ps => keysSortedB ps && wfP ps

def wfL : List BencodeValue → Bool
  | [] => true
  | v :: vs => wfV v && wfL vs

def wfP : List (List Nat × BencodeValue) → Bool
  | [] => true
  | (k, v) :: ps => decide (k.length ≤ usizeMax) && wfV v && wfP ps
end

/-- The bytes of a text literal (all examples in the spec are ASCII). -/
def strBytes (s : String) : List Nat := s.toList.map Char.toNat

/-! ## Decimal digit printing -/

theorem natDigitsAux_irrel : ∀ n f f', n < f → n < f' →
    natDigitsAux f n = natDigitsAux f' n := by
  intro n
  induction n using Nat.strong_induction_on with
  | _ n ih =>
    intro f f' hf hf'
    match f, hf with
    | g + 1, _ =>
      match f', hf' with
      | g' + 1, _ =>
        by_cases h10 : n < 10
        · simp [natDigitsAux, h10]
        · have hdiv : n / 10 < n := Nat.div_lt_self (by omega) (by omega)
          simp only [natDigitsAux, if_neg h10]
          rw [ih (n / 10) hdiv g g' (by omega) (by omega)]

theorem natDigits_eq (n : Nat) :
    natDigits n = if n < 10 then [48 + n] else natDigits (n / 10) ++ [48 + n % 10] := by
  rw [show natDigits n =
      if n < 10 then [48 + n] else natDigitsAux n (n / 10) ++ [48 + n % 10] from rfl]
  by_cases h10 : n < 10
  · rw [if_pos h10, if_pos h10]
  · have hdiv : n / 10 < n := Nat.div_lt_self (by omega) (by omega)
    rw [if_neg h10, if_neg h10]
    rw [natDigitsAux_irrel (n / 10) n (n / 10 + 1) hdiv (by omega)]
    rfl

theorem natDigits_ne_nil (n : Nat) : natDigits n ≠ [] := by
  rw [natDigits_eq]
  split <;> simp

theorem natDigits_mem_digit : ∀ n d, d ∈ natDigits n → 48 ≤ d ∧ d ≤ 57 := by
  intro n
  induction n using Nat.strong_induction_on with
  | _ n ih =>
    intro d hd
    rw [natDigits_eq] at hd
    by_cases h10 : n < 10
    · rw [if_pos h10] at hd
      simp at hd
      omega
    · rw [if_neg h10] at hd
      have hdiv : n / 10 < n := Nat.div_lt_self (by omega) (by omega)
      rcases List.mem_append.mp hd with h | h
      · exact ih (n / 10) hdiv d h
      · simp at h
        have := Nat.mod_lt n (show 0 < 10 by omega)
        omega

theorem natDigits_head_ne_48 : ∀ n, n ≠ 0 → (natDigits n).head? ≠ some 48 := by
  intro n
  induction n using Nat.strong_induction_on with
  | _ n ih =>
    intro hn
    rw [natDigits_eq]
    by_cases h10 : n < 10
    · rw [if_pos h10]
      intro h
      simp at h
      omega
    · rw [if_neg h10]
      have hdiv : n / 10 < n := Nat.div_lt_self (by omega) (by omega)
      have hne : natDigits (n / 10) ≠ [] := natDigits_ne_nil _
      match hd : natDigits (n / 10) with
      | [] => exact absurd hd hne
      | x :: xs =>
        have := ih (n / 10) hdiv (by omega)
        rw [hd] at this
        simpa using this

theorem natDigits_zero : natDigits 0 = [48] := by rw [natDigits_eq]; simp

theorem natDigits_eq_single48 : ∀ n, natDigits n = [48] → n = 0 := by
  intro n h
  by_contra hn
  have := natDigits_head_ne_48 n hn
  rw [h] at this
  simp at this

theorem digitsToNat_append (ds : List Nat) (d : Nat) :
    digitsToNat (ds ++ [d]) = 10 * digitsToNat ds + (d - 48) := by
  simp [digitsToNat, List.foldl_append]

theorem digitsToNat_natDigits : ∀ n, digitsToNat (natDigits n) = n := by
  intro n
  induction n using Nat.strong_induction_on with
  | _ n ih =>
    rw [natDigits_eq]
    by_cases h10 : n < 10
    · rw [if_pos h10]
      simp [digitsToNat]
    · rw [if_neg h10]
      have hdiv : n / 10 < n := Nat.div_lt_self (by omega) (by omega)
      rw [digitsToNat_append, ih (n / 10) hdiv]
      omega

theorem natDigits_no_leading_zero (n : Nat) :
    ¬(1 < (natDigits n).length ∧ (natDigits n).head? = some 48) := by
  rintro ⟨hlen, hhead⟩
  rcases Nat.eq_zero_or_pos n with rfl | hpos
  · rw [natDigits_zero] at hlen
    simp at hlen
  · exact natDigits_head_ne_48 n (by omega) hhead

/-! ## Primitive parser lemmas -/

theorem takeWhile_append_of_all {p : Nat → Bool} :
    ∀ (ds : List Nat) (b : Nat) (rest : List Nat), (∀ d ∈ ds, p d = true) → p b = false →
      (ds ++ b :: rest).takeWhile p = ds := by
  intro ds b rest hall hb
  induction ds with
  | nil => simp [List.takeWhile, hb]
  | cons d ds ih =>
    have hd : p d = true := hall d (by simp)
    simp only [List.cons_append, List.takeWhile_cons, hd, if_true]
    rw [ih (fun x hx => hall x (by simp [hx]))]

theorem dropWhile_append_of_all {p : Nat → Bool} :
    ∀ (ds : List Nat) (b : Nat) (rest : List Nat), (∀ d ∈ ds, p d = true) → p b = false →
      (ds ++ b :: rest).dropWhile p = b :: rest := by
  intro ds b rest hall hb
  induction ds with
  | nil => simp [List.dropWhile, hb]
  | cons d ds ih =>
    have hd : p d = true := hall d (by simp)
    simp only [List.cons_append, List.dropWhile_cons, hd, if_true]
    exact ih (fun x hx => hall x (by simp [hx]))

theorem digit1_spec (ds : List Nat) (b : Nat) (rest : List Nat) (hne : ds ≠ [])
    (hall : ∀ d ∈ ds, isDigitB d = true) (hb : isDigitB b = false) :
    digit1 (ds ++ b :: rest) = some (b :: rest, ds) := by
  simp only [digit1, takeWhile_append_of_all ds b rest hall hb,
    dropWhile_append_of_all ds b rest hall hb]
  simp [List.isEmpty_iff, hne]

theorem digit1_sound {input r ds : List Nat} (h : digit1 input = some (r, ds)) :
    input = ds ++ r ∧ ds ≠ [] ∧ (∀ d ∈ ds, isDigitB d = true) := by
  simp only [digit1] at h
  split at h
  · exact absurd h (by simp)
  · rename_i hemp
    have h1 : input.dropWhile isDigitB = r := by
      have := congrArg (fun o => (Option.map Prod.fst o).getD []) h
      simpa using this
    have h2 : input.takeWhile isDigitB = ds := by
      have := congrArg (fun o => (Option.map Prod.snd o).getD []) h
      simpa using this
    refine ⟨?_, ?_, ?_⟩
    · rw [← h1, ← h2, List.takeWhile_append_dropWhile]
    · rw [← h2]
      simpa [List.isEmpty_iff] using hemp
    · intro d hd
      rw [← h2] at hd
      exact List.mem_takeWhile_imp hd

theorem digit1_nil : digit1 [] = none := rfl

theorem digit1_head_fail {b : Nat} (t : List Nat) (hb : isDigitB b = false) :
    digit1 (b :: t) = none := by
  simp [digit1, List.takeWhile_cons, hb]

theorem takeP_append (s rest : List Nat) : takeP s.length (s ++ rest) = some (rest, s) := by
  simp [takeP, List.drop_left, List.take_left]

theorem takeP_short {n : Nat} {input : List Nat} (h : input.length < n) :
    takeP n input = none := by
  simp [takeP]
  omega

theorem takeP_sound {n : Nat} {input r t : List Nat} (h : takeP n input = some (r, t)) :
    input = t ++ r ∧ t.length = n := by
  simp only [takeP] at h
  split at h
  · rename_i hle
    have h1 : input.drop n = r := by
      have := congrArg (fun o => (Option.map Prod.fst o).getD []) h
      simpa using this
    have h2 : input.take n = t := by
      have := congrArg (fun o => (Option.map Prod.snd o).getD []) h
      simpa using this
    constructor
    · rw [← h1, ← h2, List.take_append_drop]
    · rw [← h2]
      simp [List.length_take]
      omega
  · exact absurd h (by simp)

theorem charP_cons (c : Nat) (t : List Nat) : charP c (c :: t) = some (t, c) := by
  simp [charP]

theorem charP_sound {c : Nat} {input r : List Nat} {x : Nat}
    (h : charP c input = some (r, x)) : input = c :: r ∧ x = c := by
  match input with
  | [] => exact absurd h (by simp [charP])
  | b :: t =>
    simp only [charP] at h
    split at h
    · rename_i hbc
      cases h
      exact ⟨by rw [hbc], rfl⟩
    · exact absurd h (by simp)

theorem digits_ascii {ds : List Nat} (hall : ∀ d ∈ ds, isDigitB d = true) :
    (ds.all fun b => decide (b < 128)) = true := by
  rw [List.all_eq_true]
  intro d hd
  have := hall d hd
  simp [isDigitB] at this
  simp
  omega

/-! ## The integer grammar on well-delimited literals -/

theorem isDigitB_45 : isDigitB 45 = false := by decide

theorem isDigitB_58 : isDigitB 58 = false := by decide

theorem isDigitB_101 : isDigitB 101 = false := by decide

theorem optP_fail {p : Parser α} {input : List Nat} (h : p input = none) :
    optP p input = some (input, none) := by
  simp [optP, h]

theorem optP_succ {p : Parser α} {input r : List Nat} {a : α} (h : p input = some (r, a)) :
    optP p input = some (r, some a) := by
  simp [optP, h]

theorem charP_fail {b c : Nat} (t : List Nat) (h : b ≠ c) : charP c (b :: t) = none := by
  simp [charP, h]

theorem integer_run (sgnOpt : Option Nat) (sb ds tail : List Nat)
    (hsb : optP (charP 45) (sb ++ (ds ++ 101 :: tail)) = some (ds ++ 101 :: tail, sgnOpt))
    (hne : ds ≠ []) (hall : ∀ d ∈ ds, isDigitB d = true) :
    integer (105 :: (sb ++ (ds ++ 101 :: tail))) =
      match from_integer_digits sgnOpt ds with
      | some v => some (tail, v)
      | none => none := by
  have hd1 : digit1 (ds ++ 101 :: tail) = some (101 :: tail, ds) :=
    digit1_spec ds 101 tail hne hall isDigitB_101
  simp only [integer, charP_cons, integer_digits, hsb, hd1]
  cases hfi : from_integer_digits sgnOpt ds with
  | none => simp
  | some v => simp [charP_cons]

theorem integer_forward_pos (ds tail : List Nat) (hne : ds ≠ [])
    (hall : ∀ d ∈ ds, isDigitB d = true) :
    integer (105 :: (ds ++ 101 :: tail)) =
      match from_integer_digits none ds with
      | some v => some (tail, v)
      | none => none := by
  have h0 : integer (105 :: ([] ++ (ds ++ 101 :: tail))) =
      match from_integer_digits none ds with
      | some v => some (tail, v)
      | none => none := by
    refine integer_run none [] ds tail ?_ hne hall
    match ds, hne with
    | d :: ds', _ =>
      have hd : isDigitB d = true := hall d (by simp)
      have hd45 : d ≠ 45 := by
        simp [isDigitB] at hd
        omega
      simp only [List.nil_append, List.cons_append]
      exact optP_fail (charP_fail _ hd45)
  simpa using h0

theorem integer_forward_neg (ds tail : List Nat) (hne : ds ≠ [])
    (hall : ∀ d ∈ ds, isDigitB d = true) :
    integer (105 :: 45 :: (ds ++ 101 :: tail)) =
      match from_integer_digits (some 45) ds with
      | some v => some (tail, v)
      | none => none := by
  have h0 : integer (105 :: ([45] ++ (ds ++ 101 :: tail))) =
      match from_integer_digits (some 45) ds with
      | some v => some (tail, v)
      | none => none := by
    refine integer_run (some 45) [45] ds tail ?_ hne hall
    exact optP_succ (charP_cons 45 _)
  simpa using h0

theorem natDigits_all_digit (n : Nat) : ∀ d ∈ natDigits n, isDigitB d = true := by
  intro d hd
  have := natDigits_mem_digit n d hd
  simp [isDigitB]
  omega

theorem from_integer_digits_natDigits_pos (n : Nat) :
    from_integer_digits none (natDigits n) =
      if n ≤ isizeMax then some (n : Int) else none := by
  have hascii := digits_ascii (natDigits_all_digit n)
  simp only [from_integer_digits, hascii, Bool.not_true]
  rw [if_neg (by simp), if_neg (natDigits_no_leading_zero n),
    if_neg (by rintro ⟨h1, -⟩; simp at h1), digitsToNat_natDigits]

theorem from_integer_digits_natDigits_neg (n : Nat) (hn : n ≠ 0) :
    from_integer_digits (some 45) (natDigits n) =
      if n ≤ isizeMax then some (-(n : Int)) else none := by
  have hascii := digits_ascii (natDigits_all_digit n)
  simp only [from_integer_digits, hascii, Bool.not_true]
  rw [if_neg (by simp), if_neg (natDigits_no_leading_zero n),
    if_neg (by rintro ⟨-, h2⟩; exact hn (natDigits_eq_single48 n h2)), digitsToNat_natDigits]

theorem integer_natDigits_pos (n : Nat) (tail : List Nat) :
    integer (105 :: (natDigits n ++ 101 :: tail)) =
      if n ≤ isizeMax then some (tail, (n : Int)) else none := by
  rw [integer_forward_pos (natDigits n) tail (natDigits_ne_nil n) (natDigits_all_digit n),
    from_integer_digits_natDigits_pos n]
  by_cases hle : n ≤ isizeMax <;> simp [hle]

theorem integer_natDigits_neg (n : Nat) (tail : List Nat) (hn : n ≠ 0) :
    integer (105 :: 45 :: (natDigits n ++ 101 :: tail)) =
      if n ≤ isizeMax then some (tail, -(n : Int)) else none := by
  rw [integer_forward_neg (natDigits n) tail (natDigits_ne_nil n) (natDigits_all_digit n),
    from_integer_digits_natDigits_neg n hn]
  by_cases hle : n ≤ isizeMax <;> simp [hle]

theorem integer_nil : integer [] = none := rfl

theorem integer_head_fail {b : Nat} (t : List Nat) (hb : b ≠ 105) : integer (b :: t) = none := by
  simp [integer, charP, hb]

theorem integer_sound {input rem : List Nat} {v : Int} (h : integer input = some (rem, v)) :
    ∃ (sgn ds : List Nat), (sgn = [] ∨ sgn = [45]) ∧ ds ≠ [] ∧
      (∀ d ∈ ds, isDigitB d = true) ∧
      input = 105 :: (sgn ++ (ds ++ 101 :: rem)) ∧
      from_integer_digits (if sgn = [45] then some 45 else none) ds = some v := by
  simp only [integer] at h
  match hc : charP 105 input with
  | none => rw [hc] at h; exact absurd h (by simp)
  | some (r1, c1) =>
    rw [hc] at h
    dsimp only at h
    obtain ⟨hin1, -⟩ := charP_sound hc
    simp only [integer_digits] at h
    match hopt : optP (charP 45) r1 with
    | none => rw [hopt] at h; exact absurd h (by simp)
    | some (r2, sgnOpt) =>
      rw [hopt] at h
      dsimp only at h
      match hd1 : digit1 r2 with
      | none => rw [hd1] at h; exact absurd h (by simp)
      | some (r3, ds) =>
        rw [hd1] at h
        dsimp only at h
        obtain ⟨hr2, hdne, hdall⟩ := digit1_sound hd1
        match hfi : from_integer_digits sgnOpt ds with
        | none => rw [hfi] at h; exact absurd h (by simp)
        | some v' =>
          rw [hfi] at h
          dsimp only at h
          match hce : charP 101 r3 with
          | none => rw [hce] at h; exact absurd h (by simp)
          | some (r4, c4) =>
            rw [hce] at h
            dsimp only at h
            obtain ⟨hr3, -⟩ := charP_sound hce
            simp only [Option.some.injEq, Prod.mk.injEq] at h
            obtain ⟨hr4, hv⟩ := h
            subst hr4 hv
            simp only [optP] at hopt
            match hc45 : charP 45 r1 with
            | some (r1', c') =>
              rw [hc45] at hopt
              obtain ⟨hr1, hcv⟩ := charP_sound hc45
              simp only [Option.some.injEq, Prod.mk.injEq] at hopt
              obtain ⟨h1, h2⟩ := hopt
              subst h1
              refine ⟨[45], ds, Or.inr rfl, hdne, hdall, ?_, ?_⟩
              · rw [hin1, hr1, hr2, hr3]
                simp
              · have hif : (if ([45] : List Nat) = [45] then some 45 else (none : Option Nat)) =
                    some 45 := by simp
                rw [hif]
                rw [← h2, hcv] at hfi
                exact hfi
            | none =>
              rw [hc45] at hopt
              simp only [Option.some.injEq, Prod.mk.injEq] at hopt
              obtain ⟨h1, h2⟩ := hopt
              subst h1
              refine ⟨[], ds, Or.inl rfl, hdne, hdall, ?_, ?_⟩
              · rw [hin1, hr2, hr3]
                simp
              · have hif : (if ([] : List Nat) = [45] then some 45 else (none : Option Nat)) =
                    none := by simp
                rw [hif]
                rw [← h2] at hfi
                exact hfi

theorem integer_translate {pre rem : List Nat} {v : Int} (rest : List Nat)
    (h : integer (pre ++ rem) = some (rem, v)) :
    integer (pre ++ rest) = some (rest, v) := by
  obtain ⟨sgn, ds, hsgn, hdne, hdall, hshape, hfi⟩ := integer_sound h
  have hshape' : pre ++ rem = (105 :: (sgn ++ ds ++ [101])) ++ rem := by
    rw [hshape]
    simp
  have hpre : pre = 105 :: (sgn ++ ds ++ [101]) := List.append_cancel_right hshape'
  rcases hsgn with rfl | rfl
  · have hfi' : from_integer_digits none ds = some v := by
      simpa using hfi
    have := integer_forward_pos ds rest hdne hdall
    rw [hfi'] at this
    rw [hpre]
    simpa using this
  · have hfi' : from_integer_digits (some 45) ds = some v := by
      simpa using hfi
    have := integer_forward_neg ds rest hdne hdall
    rw [hfi'] at this
    rw [hpre]
    simpa using this

/-! ## The byte-string grammar -/

theorem parse_length_forward (ds tail : List Nat) (hne : ds ≠ [])
    (hall : ∀ d ∈ ds, isDigitB d = true) :
    parse_length (ds ++ 58 :: tail) =
      if 1 < ds.length ∧ ds.head? = some 48 then none
      else if digitsToNat ds ≤ usizeMax then some (tail, digitsToNat ds)
      else none := by
  simp only [parse_length, digit1_spec ds 58 tail hne hall isDigitB_58, charP_cons,
    digits_ascii hall, Bool.not_true]
  rw [if_neg (by simp)]

theorem byte_string_natDigits (n : Nat) (s rest : List Nat) (hlen : s.length = n)
    (hle : n ≤ usizeMax) :
    byte_string (natDigits n ++ 58 :: (s ++ rest)) = some (rest, s) := by
  simp only [byte_string,
    parse_length_forward (natDigits n) (s ++ rest) (natDigits_ne_nil n) (natDigits_all_digit n)]
  rw [if_neg (natDigits_no_leading_zero n), digitsToNat_natDigits,
    if_pos hle]
  rw [← hlen]
  exact takeP_append s rest

theorem byte_string_insufficient (n : Nat) (s : List Nat) (hlt : s.length < n) :
    byte_string (natDigits n ++ 58 :: s) = none := by
  simp only [byte_string,
    parse_length_forward (natDigits n) s (natDigits_ne_nil n) (natDigits_all_digit n)]
  rw [if_neg (natDigits_no_leading_zero n), digitsToNat_natDigits]
  by_cases hle : n ≤ usizeMax
  · rw [if_pos hle]
    exact takeP_short hlt
  · rw [if_neg hle]

theorem byte_string_nil : byte_string [] = none := rfl

theorem byte_string_head_fail {b : Nat} (t : List Nat) (hb : isDigitB b = false) :
    byte_string (b :: t) = none := by
  simp [byte_string, parse_length, digit1_head_fail t hb]

theorem byte_string_sound {input rem s : List Nat} (h : byte_string input = some (rem, s)) :
    ∃ ds, ds ≠ [] ∧ (∀ d ∈ ds, isDigitB d = true) ∧
      input = ds ++ 58 :: (s ++ rem) ∧
      ¬(1 < ds.length ∧ ds.head? = some 48) ∧
      digitsToNat ds ≤ usizeMax ∧ digitsToNat ds = s.length := by
  simp only [byte_string] at h
  match hpl : parse_length input with
  | none => rw [hpl] at h; exact absurd h (by simp)
  | some (r1, n) =>
    rw [hpl] at h
    dsimp only at h
    obtain ⟨hr1, hlen⟩ := takeP_sound h
    simp only [parse_length] at hpl
    match hd1 : digit1 input with
    | none => rw [hd1] at hpl; exact absurd hpl (by simp)
    | some (r2, ds) =>
      rw [hd1] at hpl
      dsimp only at hpl
      obtain ⟨hin, hdne, hdall⟩ := digit1_sound hd1
      match hc : charP 58 r2 with
      | none => rw [hc] at hpl; exact absurd hpl (by simp)
      | some (r3, c3) =>
        rw [hc] at hpl
        dsimp only at hpl
        obtain ⟨hr2, -⟩ := charP_sound hc
        rw [digits_ascii hdall] at hpl
        rw [show (!(true : Bool)) = false from rfl] at hpl
        rw [if_neg (by simp)] at hpl
        split at hpl
        · exact absurd hpl (by simp)
        · rename_i hlz
          split at hpl
          · rename_i hle
            simp only [Option.some.injEq, Prod.mk.injEq] at hpl
            obtain ⟨h1, h2⟩ := hpl
            subst h1
            refine ⟨ds, hdne, hdall, ?_, hlz, hle, by rw [h2]; exact hlen.symm⟩
            rw [hin, hr2, hr1]
          · exact absurd hpl (by simp)

theorem byte_string_translate {pre rem s : List Nat} (rest : List Nat)
    (h : byte_string (pre ++ rem) = some (rem, s)) :
    byte_string (pre ++ rest) = some (rest, s) := by
  obtain ⟨ds, hdne, hdall, hshape, hlz, hle, hlen⟩ := byte_string_sound h
  have hshape' : pre ++ rem = (ds ++ 58 :: s) ++ rem := by
    rw [hshape]
    simp
  have hpre : pre = ds ++ 58 :: s := List.append_cancel_right hshape'
  rw [hpre, List.append_assoc, List.cons_append]
  rw [byte_string, parse_length_forward ds (s ++ rest) hdne hdall, if_neg hlz, if_pos hle,
    hlen]
  exact takeP_append s rest

/-! ## The fueled value dispatcher: branch lemmas -/

theorem integer_suffix {input rem : List Nat} {v : Int} (h : integer input = some (rem, v)) :
    ∃ pre, pre ≠ [] ∧ input = pre ++ rem := by
  obtain ⟨sgn, ds, -, -, -, hshape, -⟩ := integer_sound h
  refine ⟨105 :: (sgn ++ ds ++ [101]), by simp, ?_⟩
  rw [hshape]
  simp

theorem byte_string_suffix {input rem s : List Nat} (h : byte_string input = some (rem, s)) :
    ∃ pre, pre ≠ [] ∧ input = pre ++ rem := by
  obtain ⟨ds, -, -, hshape, -, -, -⟩ := byte_string_sound h
  refine ⟨ds ++ 58 :: s, by simp, ?_⟩
  rw [hshape]
  simp

theorem listWith_sound {pm : Parser (List BencodeValue)} {input rem : List Nat}
    {vs : List BencodeValue} (h : listWith pm input = some (rem, vs)) :
    ∃ t, input = 108 :: t ∧ pm t = some (101 :: rem, vs) := by
  simp only [listWith] at h
  match hc : charP 108 input with
  | none => rw [hc] at h; exact absurd h (by simp)
  | some (r1, c1) =>
    rw [hc] at h
    dsimp only at h
    obtain ⟨hin, -⟩ := charP_sound hc
    match hpm : pm r1 with
    | none => rw [hpm] at h; exact absurd h (by simp)
    | some (r2, vs') =>
      rw [hpm] at h
      dsimp only at h
      match hce : charP 101 r2 with
      | none => rw [hce] at h; exact absurd h (by simp)
      | some (r3, c3) =>
        rw [hce] at h
        dsimp only at h
        obtain ⟨hr2, -⟩ := charP_sound hce
        simp only [Option.some.injEq, Prod.mk.injEq] at h
        obtain ⟨h1, h2⟩ := h
        subst h1 h2
        exact ⟨r1, hin, by rw [hpm, hr2]⟩

theorem dictWith_sound {pm : Parser (List (List Nat × BencodeValue))} {input rem : List Nat}
    {res : List (List Nat × BencodeValue)} (h : dictWith pm input = some (rem, res)) :
    ∃ t ps, input = 100 :: t ∧ pm t = some (101 :: rem, ps) ∧ res = mapFromList ps := by
  simp only [dictWith] at h
  match hc : charP 100 input with
  | none => rw [hc] at h; exact absurd h (by simp)
  | some (r1, c1) =>
    rw [hc] at h
    dsimp only at h
    obtain ⟨hin, -⟩ := charP_sound hc
    match hpm : pm r1 with
    | none => rw [hpm] at h; exact absurd h (by simp)
    | some (r2, ps) =>
      rw [hpm] at h
      dsimp only at h
      match hce : charP 101 r2 with
      | none => rw [hce] at h; exact absurd h (by simp)
      | some (r3, c3) =>
        rw [hce] at h
        dsimp only at h
        obtain ⟨hr2, -⟩ := charP_sound hce
        simp only [Option.some.injEq, Prod.mk.injEq] at h
        obtain ⟨h1, h2⟩ := h
        subst h1 h2
        exact ⟨r1, ps, hin, by rw [hpm, hr2], rfl⟩

theorem listWith_forward {pm : Parser (List BencodeValue)} {t rem : List Nat}
    {vs : List BencodeValue} (h : pm t = some (101 :: rem, vs)) :
    listWith pm (108 :: t) = some (rem, vs) := by
  simp only [listWith, charP_cons, h, charP_cons]

theorem dictWith_forward {pm : Parser (List (List Nat × BencodeValue))} {t rem : List Nat}
    {ps : List (List Nat × BencodeValue)} (h : pm t = some (101 :: rem, ps)) :
    dictWith pm (100 :: t) = some (rem, mapFromList ps) := by
  simp only [dictWith, charP_cons, h, charP_cons]

theorem listWith_nil (pm : Parser (List BencodeValue)) : listWith pm [] = none := rfl

theorem listWith_head_fail {b : Nat} (pm : Parser (List BencodeValue)) (t : List Nat)
    (hb : b ≠ 108) : listWith pm (b :: t) = none := by
  simp [listWith, charP, hb]

theorem dictWith_nil (pm : Parser (List (List Nat × BencodeValue))) : dictWith pm [] = none := rfl

theorem dictWith_head_fail {b : Nat} (pm : Parser (List (List Nat × BencodeValue)))
    (t : List Nat) (hb : b ≠ 100) : dictWith pm (b :: t) = none := by
  simp [dictWith, charP, hb]

theorem bvF_int_case {f : Nat} {input rem : List Nat} {i : Int}
    (h : integer input = some (rem, i)) :
    bencodeValueF (f + 1) input = some (rem, .integer i) := by
  simp only [bencodeValueF, h]

theorem bvF_bs_case {f : Nat} {input rem bs : List Nat}
    (h1 : integer input = none) (h2 : byte_string input = some (rem, bs)) :
    bencodeValueF (f + 1) input = some (rem, .byteString bs) := by
  simp only [bencodeValueF, h1, h2]

theorem bvF_list_case {f : Nat} {input rem : List Nat} {vs : List BencodeValue}
    (h1 : integer input = none) (h2 : byte_string input = none)
    (h3 : listWith (manyBF f) input = some (rem, vs)) :
    bencodeValueF (f + 1) input = some (rem, .list vs) := by
  simp only [bencodeValueF, h1, h2, h3]

theorem bvF_dict_case {f : Nat} {input rem : List Nat} {ps : List (List Nat × BencodeValue)}
    (h1 : integer input = none) (h2 : byte_string input = none)
    (h3 : listWith (manyBF f) input = none)
    (h4 : dictWith (manyPairF f) input = some (rem, ps)) :
    bencodeValueF (f + 1) input = some (rem, .dict ps) := by
  simp only [bencodeValueF, h1, h2, h3, h4]

theorem manyBF_stop {f : Nat} {input : List Nat} (h : bencodeValueF f input = none) :
    manyBF (f + 1) input = some (input, []) := by
  simp only [manyBF, h]

theorem manyBF_cons {f : Nat} {input r1 r2 : List Nat} {v : BencodeValue}
    {vs : List BencodeValue} (h1 : bencodeValueF f input = some (r1, v))
    (h2 : r1.length < input.length) (h3 : manyBF f r1 = some (r2, vs)) :
    manyBF (f + 1) input = some (r2, v :: vs) := by
  simp only [manyBF, h1, if_pos h2, h3]

theorem manyPairF_stop_key {f : Nat} {input : List Nat} (h : byte_string input = none) :
    manyPairF (f + 1) input = some (input, []) := by
  simp only [manyPairF, h]

theorem manyPairF_stop_val {f : Nat} {input r1 k : List Nat}
    (h1 : byte_string input = some (r1, k)) (h2 : bencodeValueF f r1 = none) :
    manyPairF (f + 1) input = some (input, []) := by
  simp only [manyPairF, h1, h2]

theorem manyPairF_cons {f : Nat} {input r1 r2 r3 k : List Nat} {v : BencodeValue}
    {ps : List (List Nat × BencodeValue)} (h1 : byte_string input = some (r1, k))
    (h2 : bencodeValueF f r1 = some (r2, v)) (h3 : r2.length < input.length)
    (h4 : manyPairF f r2 = some (r3, ps)) :
    manyPairF (f + 1) input = some (r3, (k, v) :: ps) := by
  simp only [manyPairF, h1, h2, if_pos h3, h4]

theorem bencodeValueF_nil : ∀ f, bencodeValueF f [] = none
  | 0 => rfl
  | _ + 1 => rfl

theorem bencodeValueF_head_fail {b : Nat} (t : List Nat) (h105 : b ≠ 105)
    (hd : isDigitB b = false) (h108 : b ≠ 108) (h100 : b ≠ 100) :
    ∀ f, bencodeValueF f (b :: t) = none
  | 0 => rfl
  | f + 1 => by
    simp only [bencodeValueF, integer_head_fail t h105, byte_string_head_fail t hd,
      listWith_head_fail _ t h108, dictWith_head_fail _ t h100]

theorem bencodeValueF_e (t : List Nat) (f : Nat) : bencodeValueF f (101 :: t) = none :=
  bencodeValueF_head_fail t (by omega) (by decide) (by omega) (by omega) f

/-! ## Consumed input is a nonempty prefix -/

theorem parsers_suffix : ∀ f : Nat,
    (∀ {input rem : List Nat} {v : BencodeValue}, bencodeValueF f input = some (rem, v) →
      ∃ pre, pre ≠ [] ∧ input = pre ++ rem) ∧
    (∀ {input rem : List Nat} {vs : List BencodeValue}, manyBF f input = some (rem, vs) →
      ∃ pre, input = pre ++ rem) ∧
    (∀ {input rem : List Nat} {ps : List (List Nat × BencodeValue)},
      manyPairF f input = some (rem, ps) → ∃ pre, input = pre ++ rem) := by
  intro f
  induction f with
  | zero =>
    refine ⟨?_, ?_, ?_⟩ <;> intro input rem x h <;>
      simp [bencodeValueF, manyBF, manyPairF] at h
  | succ f ih =>
    obtain ⟨ihV, ihM, ihP⟩ := ih
    refine ⟨?_, ?_, ?_⟩
    · intro input rem v h
      simp only [bencodeValueF] at h
      split at h
      · rename_i r i heq
        simp only [Option.some.injEq, Prod.mk.injEq] at h
        obtain ⟨h1, -⟩ := h
        subst h1
        obtain ⟨pre, hne, hsh⟩ := integer_suffix heq
        exact ⟨pre, hne, hsh⟩
      · split at h
        · rename_i r bs heq
          simp only [Option.some.injEq, Prod.mk.injEq] at h
          obtain ⟨h1, -⟩ := h
          subst h1
          obtain ⟨pre, hne, hsh⟩ := byte_string_suffix heq
          exact ⟨pre, hne, hsh⟩
        · split at h
          · rename_i r vs heq
            simp only [Option.some.injEq, Prod.mk.injEq] at h
            obtain ⟨h1, -⟩ := h
            subst h1
            obtain ⟨t, hin, hpm⟩ := listWith_sound heq
            obtain ⟨p2, hp2⟩ := ihM hpm
            refine ⟨108 :: p2 ++ [101], by simp, ?_⟩
            rw [hin, hp2]
            simp
          · split at h
            · rename_i r ps heq
              simp only [Option.some.injEq, Prod.mk.injEq] at h
              obtain ⟨h1, -⟩ := h
              subst h1
              obtain ⟨t, ps0, hin, hpm, -⟩ := dictWith_sound heq
              obtain ⟨p2, hp2⟩ := ihP hpm
              refine ⟨100 :: p2 ++ [101], by simp, ?_⟩
              rw [hin, hp2]
              simp
            · exact absurd h (by simp)
    · intro input rem vs h
      simp only [manyBF] at h
      split at h
      · simp only [Option.some.injEq, Prod.mk.injEq] at h
        obtain ⟨h1, -⟩ := h
        exact ⟨[], by rw [h1]; simp⟩
      · rename_i r1 v heq1
        split at h
        · rename_i hguard
          split at h
          · rename_i r2 vs' heq2
            simp only [Option.some.injEq, Prod.mk.injEq] at h
            obtain ⟨h1, -⟩ := h
            subst h1
            obtain ⟨p1, -, hp1⟩ := ihV heq1
            obtain ⟨p2, hp2⟩ := ihM heq2
            refine ⟨p1 ++ p2, ?_⟩
            rw [hp1, hp2]
            simp
          · exact absurd h (by simp)
        · exact absurd h (by simp)
    · intro input rem ps h
      simp only [manyPairF] at h
      split at h
      · simp only [Option.some.injEq, Prod.mk.injEq] at h
        obtain ⟨h1, -⟩ := h
        exact ⟨[], by rw [h1]; simp⟩
      · rename_i r1 k heq1
        split at h
        · simp only [Option.some.injEq, Prod.mk.injEq] at h
          obtain ⟨h1, -⟩ := h
          exact ⟨[], by rw [h1]; simp⟩
        · rename_i r2 v heqV
          split at h
          · rename_i hguard
            split at h
            · rename_i r3 ps' heq2
              simp only [Option.some.injEq, Prod.mk.injEq] at h
              obtain ⟨h1, -⟩ := h
              subst h1
              obtain ⟨pA, -, hpA⟩ := byte_string_suffix heq1
              obtain ⟨pB, -, hpB⟩ := ihV heqV
              obtain ⟨pC, hpC⟩ := ihP heq2
              refine ⟨pA ++ pB ++ pC, ?_⟩
              rw [hpA, hpB, hpC]
              simp
            · exact absurd h (by simp)
          · exact absurd h (by simp)

theorem bencodeValueF_suffix {f : Nat} {input rem : List Nat} {v : BencodeValue}
    (h : bencodeValueF f input = some (rem, v)) : ∃ pre, pre ≠ [] ∧ input = pre ++ rem :=
  (parsers_suffix f).1 h

theorem manyBF_suffix {f : Nat} {input rem : List Nat} {vs : List BencodeValue}
    (h : manyBF f input = some (rem, vs)) : ∃ pre, input = pre ++ rem :=
  (parsers_suffix f).2.1 h

theorem manyPairF_suffix {f : Nat} {input rem : List Nat} {ps : List (List Nat × BencodeValue)}
    (h : manyPairF f input = some (rem, ps)) : ∃ pre, input = pre ++ rem :=
  (parsers_suffix f).2.2 h

/-! ## Fuel monotonicity -/

theorem parsers_mono_step : ∀ f : Nat,
    (∀ {input rem : List Nat} {v : BencodeValue}, bencodeValueF f input = some (rem, v) →
      bencodeValueF (f + 1) input = some (rem, v)) ∧
    (∀ {input t : List Nat} {vs : List BencodeValue}, manyBF f input = some (101 :: t, vs) →
      manyBF (f + 1) input = some (101 :: t, vs)) ∧
    (∀ {input t : List Nat} {ps : List (List Nat × BencodeValue)},
      manyPairF f input = some (101 :: t, ps) → manyPairF (f + 1) input = some (101 :: t, ps)) := by
  intro f
  induction f with
  | zero =>
    refine ⟨?_, ?_, ?_⟩ <;> intro input rem x h <;>
      simp [bencodeValueF, manyBF, manyPairF] at h
  | succ f ih =>
    obtain ⟨ihV, ihM, ihP⟩ := ih
    refine ⟨?_, ?_, ?_⟩
    · intro input rem v h
      simp only [bencodeValueF] at h
      split at h
      · rename_i r i heq
        simp only [Option.some.injEq, Prod.mk.injEq] at h
        obtain ⟨h1, h2⟩ := h
        subst h1 h2
        exact bvF_int_case heq
      · rename_i heqInt
        split at h
        · rename_i r bs heq
          simp only [Option.some.injEq, Prod.mk.injEq] at h
          obtain ⟨h1, h2⟩ := h
          subst h1 h2
          exact bvF_bs_case heqInt heq
        · rename_i heqBs
          split at h
          · rename_i r vs heq
            simp only [Option.some.injEq, Prod.mk.injEq] at h
            obtain ⟨h1, h2⟩ := h
            subst h1 h2
            obtain ⟨t, hin, hpm⟩ := listWith_sound heq
            subst hin
            exact bvF_list_case heqInt heqBs (listWith_forward (ihM hpm))
          · rename_i heqL
            split at h
            · rename_i r ps heq
              simp only [Option.some.injEq, Prod.mk.injEq] at h
              obtain ⟨h1, h2⟩ := h
              subst h1 h2
              obtain ⟨t, ps0, hin, hpm, hres⟩ := dictWith_sound heq
              subst hin hres
              refine bvF_dict_case heqInt heqBs (listWith_head_fail _ t (by omega)) ?_
              exact dictWith_forward (ihP hpm)
            · exact absurd h (by simp)
    · intro input t vs h
      simp only [manyBF] at h
      split at h
      · simp only [Option.some.injEq, Prod.mk.injEq] at h
        obtain ⟨h1, h2⟩ := h
        subst h2
        rw [← h1]
        exact manyBF_stop (h1 ▸ bencodeValueF_e t (f + 1))
      · rename_i r1 v heq1
        split at h
        · rename_i hguard
          split at h
          · rename_i r2 vs' heq2
            simp only [Option.some.injEq, Prod.mk.injEq] at h
            obtain ⟨h1, h2⟩ := h
            subst h2
            subst h1
            exact manyBF_cons (ihV heq1) hguard (ihM heq2)
          · exact absurd h (by simp)
        · exact absurd h (by simp)
    · intro input t ps h
      simp only [manyPairF] at h
      split at h
      · rename_i heq
        simp only [Option.some.injEq, Prod.mk.injEq] at h
        obtain ⟨h1, h2⟩ := h
        subst h2
        rw [← h1]
        exact manyPairF_stop_key heq
      · rename_i r1 k heq1
        split at h
        · simp only [Option.some.injEq, Prod.mk.injEq] at h
          obtain ⟨h1, -⟩ := h
          rw [h1, byte_string_head_fail t (by decide)] at heq1
          exact absurd heq1 (by simp)
        · rename_i r2 v heqV
          split at h
          · rename_i hguard
            split at h
            · rename_i r3 ps' heq2
              simp only [Option.some.injEq, Prod.mk.injEq] at h
              obtain ⟨h1, h2⟩ := h
              subst h2
              subst h1
              exact manyPairF_cons heq1 (ihV heqV) hguard (ihP heq2)
            · exact absurd h (by simp)
          · exact absurd h (by simp)

theorem bencodeValueF_mono {f f' : Nat} (hle : f ≤ f') {input rem : List Nat}
    {v : BencodeValue} (h : bencodeValueF f input = some (rem, v)) :
    bencodeValueF f' input = some (rem, v) := by
  induction f', hle using Nat.le_induction with
  | base => exact h
  | succ n hn ih => exact (parsers_mono_step n).1 ih

theorem manyBF_mono {f f' : Nat} (hle : f ≤ f') {input t : List Nat} {vs : List BencodeValue}
    (h : manyBF f input = some (101 :: t, vs)) : manyBF f' input = some (101 :: t, vs) := by
  induction f', hle using Nat.le_induction with
  | base => exact h
  | succ n hn ih => exact (parsers_mono_step n).2.1 ih

theorem manyPairF_mono {f f' : Nat} (hle : f ≤ f') {input t : List Nat}
    {ps : List (List Nat × BencodeValue)} (h : manyPairF f input = some (101 :: t, ps)) :
    manyPairF f' input = some (101 :: t, ps) := by
  induction f', hle using Nat.le_induction with
  | base => exact h
  | succ n hn ih => exact (parsers_mono_step n).2.2 ih

/-! ## Parsed values depend only on the consumed prefix -/

theorem parsers_translate : ∀ f : Nat,
    (∀ {pre rem rest : List Nat} {v : BencodeValue},
      bencodeValueF f (pre ++ rem) = some (rem, v) →
      bencodeValueF f (pre ++ rest) = some (rest, v)) ∧
    (∀ {pre rem rest : List Nat} {vs : List BencodeValue},
      manyBF f (pre ++ 101 :: rem) = some (101 :: rem, vs) →
      manyBF f (pre ++ 101 :: rest) = some (101 :: rest, vs)) ∧
    (∀ {pre rem rest : List Nat} {ps : List (List Nat × BencodeValue)},
      manyPairF f (pre ++ 101 :: rem) = some (101 :: rem, ps) →
      manyPairF f (pre ++ 101 :: rest) = some (101 :: rest, ps)) := by
  intro f
  induction f with
  | zero =>
    refine ⟨?_, ?_, ?_⟩ <;> intro pre rem rest x h <;>
      simp [bencodeValueF, manyBF, manyPairF] at h
  | succ f ih =>
    obtain ⟨ihV, ihM, ihP⟩ := ih
    refine ⟨?_, ?_, ?_⟩
    · intro pre rem rest v h
      simp only [bencodeValueF] at h
      split at h
      · rename_i r i heq
        simp only [Option.some.injEq, Prod.mk.injEq] at h
        obtain ⟨h1, h2⟩ := h
        subst h1 h2
        exact bvF_int_case (integer_translate rest heq)
      · rename_i heqInt
        split at h
        · rename_i r bs heq
          simp only [Option.some.injEq, Prod.mk.injEq] at h
          obtain ⟨h1, h2⟩ := h
          subst h1 h2
          obtain ⟨ds, hdne, hdall, hshape, -, -, -⟩ := byte_string_sound heq
          have hpre : pre = ds ++ 58 :: bs := by
            have hx : pre ++ r = (ds ++ 58 :: bs) ++ r := by
              rw [hshape]
              simp
            exact List.append_cancel_right hx
          match ds, hdne with
          | d :: ds', _ =>
            have hd : isDigitB d = true := hdall d (by simp)
            have hInt' : integer (pre ++ rest) = none := by
              rw [hpre]
              refine integer_head_fail _ ?_
              simp [isDigitB] at hd
              omega
            exact bvF_bs_case hInt' (byte_string_translate rest heq)
        · rename_i heqBs
          split at h
          · rename_i r vs heq
            simp only [Option.some.injEq, Prod.mk.injEq] at h
            obtain ⟨h1, h2⟩ := h
            subst h1 h2
            obtain ⟨t, hin, hpm⟩ := listWith_sound heq
            obtain ⟨p2, hp2⟩ := manyBF_suffix hpm
            have hpre : pre = 108 :: p2 ++ [101] := by
              have hx : pre ++ r = (108 :: p2 ++ [101]) ++ r := by
                rw [show (108 :: p2 ++ [101]) ++ r = 108 :: (p2 ++ 101 :: r) by simp]
                rw [← hp2, ← hin]
              exact List.append_cancel_right hx
            rw [hp2] at hpm
            have hpm' : manyBF f (p2 ++ 101 :: rest) = some (101 :: rest, vs) := ihM hpm
            rw [hpre, show (108 :: p2 ++ [101]) ++ rest = 108 :: (p2 ++ 101 :: rest) by simp]
            refine bvF_list_case (integer_head_fail _ (by omega))
              (byte_string_head_fail _ (by decide)) (listWith_forward hpm')
          · rename_i heqL
            split at h
            · rename_i r ps heq
              simp only [Option.some.injEq, Prod.mk.injEq] at h
              obtain ⟨h1, h2⟩ := h
              subst h1 h2
              obtain ⟨t, ps0, hin, hpm, hres⟩ := dictWith_sound heq
              subst hres
              obtain ⟨p2, hp2⟩ := manyPairF_suffix hpm
              have hpre : pre = 100 :: p2 ++ [101] := by
                have hx : pre ++ r = (100 :: p2 ++ [101]) ++ r := by
                  rw [show (100 :: p2 ++ [101]) ++ r = 100 :: (p2 ++ 101 :: r) by simp]
                  rw [← hp2, ← hin]
                exact List.append_cancel_right hx
              rw [hp2] at hpm
              have hpm' : manyPairF f (p2 ++ 101 :: rest) = some (101 :: rest, ps0) := ihP hpm
              rw [hpre, show (100 :: p2 ++ [101]) ++ rest = 100 :: (p2 ++ 101 :: rest) by simp]
              refine bvF_dict_case (integer_head_fail _ (by omega))
                (byte_string_head_fail _ (by decide)) (listWith_head_fail _ _ (by omega))
                (dictWith_forward hpm')
            · exact absurd h (by simp)
    · intro pre rem rest vs h
      simp only [manyBF] at h
      split at h
      · simp only [Option.some.injEq, Prod.mk.injEq] at h
        obtain ⟨h1, h2⟩ := h
        subst h2
        have hpre : pre = [] := by
          simpa using congrArg List.length h1
        subst hpre
        simpa using manyBF_stop (bencodeValueF_e rest f)
      · rename_i r1 v heq1
        split at h
        · rename_i hguard
          split at h
          · rename_i r2 vs' heq2
            simp only [Option.some.injEq, Prod.mk.injEq] at h
            obtain ⟨h1, h2⟩ := h
            subst h2
            subst h1
            obtain ⟨p2, hp2⟩ := manyBF_suffix heq2
            obtain ⟨p1, hp1ne, hp1⟩ := bencodeValueF_suffix heq1
            have hpre : pre = p1 ++ p2 := by
              have hx : pre ++ 101 :: rem = (p1 ++ p2) ++ 101 :: rem := by
                rw [List.append_assoc, ← hp2, ← hp1]
              exact List.append_cancel_right hx
            rw [hp2] at heq2
            rw [hp1, hp2] at heq1
            have heq1' : bencodeValueF f (p1 ++ (p2 ++ 101 :: rest)) =
                some (p2 ++ 101 :: rest, v) := ihV heq1
            have heq2' : manyBF f (p2 ++ 101 :: rest) = some (101 :: rest, vs') := ihM heq2
            have hguard' : (p2 ++ 101 :: rest).length < (p1 ++ (p2 ++ 101 :: rest)).length := by
              have : 0 < p1.length := List.length_pos.mpr hp1ne
              simp [List.length_append]
              omega
            rw [hpre, List.append_assoc]
            exact manyBF_cons heq1' hguard' heq2'
          · exact absurd h (by simp)
        · exact absurd h (by simp)
    · intro pre rem rest ps h
      simp only [manyPairF] at h
      split at h
      · rename_i heq
        simp only [Option.some.injEq, Prod.mk.injEq] at h
        obtain ⟨h1, h2⟩ := h
        subst h2
        have hpre : pre = [] := by
          simpa using congrArg List.length h1
        subst hpre
        have hstop : manyPairF (f + 1) (101 :: rest) = some (101 :: rest, []) :=
          manyPairF_stop_key (byte_string_head_fail rest (by decide))
        simpa using hstop
      · rename_i r1 k heq1
        split at h
        · simp only [Option.some.injEq, Prod.mk.injEq] at h
          obtain ⟨h1, -⟩ := h
          have hpre : pre = [] := by
            simpa using congrArg List.length h1
          subst hpre
          simp only [List.nil_append] at heq1
          have hbs : byte_string (101 :: rem) = none := byte_string_head_fail rem (by decide)
          rw [hbs] at heq1
          exact absurd heq1 (by simp)
        · rename_i r2 v heqV
          split at h
          · rename_i hguard
            split at h
            · rename_i r3 ps' heq2
              simp only [Option.some.injEq, Prod.mk.injEq] at h
              obtain ⟨h1, h2⟩ := h
              subst h2
              subst h1
              obtain ⟨pC, hpC⟩ := manyPairF_suffix heq2
              obtain ⟨pB, hpBne, hpB⟩ := bencodeValueF_suffix heqV
              obtain ⟨pA, hpAne, hpA⟩ := byte_string_suffix heq1
              have hpre : pre = pA ++ (pB ++ pC) := by
                have hx : pre ++ 101 :: rem = (pA ++ (pB ++ pC)) ++ 101 :: rem := by
                  rw [List.append_assoc, List.append_assoc, ← hpC, ← hpB, ← hpA]
                exact List.append_cancel_right hx
              rw [hpC] at heq2
              rw [hpB, hpC] at heqV
              rw [hpA, hpB, hpC] at heq1
              have heq1' := byte_string_translate (pB ++ (pC ++ 101 :: rest)) heq1
              have heqV' : bencodeValueF f (pB ++ (pC ++ 101 :: rest)) =
                  some (pC ++ 101 :: rest, v) := ihV heqV
              have heq2' : manyPairF f (pC ++ 101 :: rest) = some (101 :: rest, ps') := ihP heq2
              have hguard' : (pC ++ 101 :: rest).length <
                  (pA ++ (pB ++ (pC ++ 101 :: rest))).length := by
                have hA : 0 < pA.length := List.length_pos.mpr hpAne
                simp [List.length_append]
                omega
              rw [hpre, List.append_assoc, List.append_assoc]
              exact manyPairF_cons heq1' heqV' hguard' heq2'
            · exact absurd h (by simp)
          · exact absurd h (by simp)

theorem bencodeValueF_translate {f : Nat} {pre rem : List Nat} {v : BencodeValue}
    (rest : List Nat) (h : bencodeValueF f (pre ++ rem) = some (rem, v)) :
    bencodeValueF f (pre ++ rest) = some (rest, v) :=
  (parsers_translate f).1 h

/-! ## Fuel one past the consumed length always suffices -/

theorem parsers_minfuel : ∀ f : Nat,
    (∀ {pre rem : List Nat} {v : BencodeValue},
      bencodeValueF f (pre ++ rem) = some (rem, v) →
      bencodeValueF (pre.length + 1) (pre ++ rem) = some (rem, v)) ∧
    (∀ {pre rem : List Nat} {vs : List BencodeValue},
      manyBF f (pre ++ 101 :: rem) = some (101 :: rem, vs) →
      manyBF (pre.length + 2) (pre ++ 101 :: rem) = some (101 :: rem, vs)) ∧
    (∀ {pre rem : List Nat} {ps : List (List Nat × BencodeValue)},
      manyPairF f (pre ++ 101 :: rem) = some (101 :: rem, ps) →
      manyPairF (pre.length + 2) (pre ++ 101 :: rem) = some (101 :: rem, ps)) := by
  intro f
  induction f with
  | zero =>
    refine ⟨?_, ?_, ?_⟩ <;> intro pre rem x h <;>
      simp [bencodeValueF, manyBF, manyPairF] at h
  | succ f ih =>
    obtain ⟨ihV, ihM, ihP⟩ := ih
    refine ⟨?_, ?_, ?_⟩
    · intro pre rem v h
      simp only [bencodeValueF] at h
      split at h
      · rename_i r i heq
        simp only [Option.some.injEq, Prod.mk.injEq] at h
        obtain ⟨h1, h2⟩ := h
        subst h1 h2
        exact bvF_int_case heq
      · rename_i heqInt
        split at h
        · rename_i r bs heq
          simp only [Option.some.injEq, Prod.mk.injEq] at h
          obtain ⟨h1, h2⟩ := h
          subst h1 h2
          exact bvF_bs_case heqInt heq
        · rename_i heqBs
          split at h
          · rename_i r vs heq
            simp only [Option.some.injEq, Prod.mk.injEq] at h
            obtain ⟨h1, h2⟩ := h
            subst h1 h2
            obtain ⟨t, hin, hpm⟩ := listWith_sound heq
            obtain ⟨p2, hp2⟩ := manyBF_suffix hpm
            have hpre : pre = 108 :: p2 ++ [101] := by
              have hx : pre ++ r = (108 :: p2 ++ [101]) ++ r := by
                rw [show (108 :: p2 ++ [101]) ++ r = 108 :: (p2 ++ 101 :: r) by simp]
                rw [← hp2, ← hin]
              exact List.append_cancel_right hx
            rw [hp2] at hpm
            have hpm' := ihM hpm
            have hlen : (108 :: p2 ++ [101]).length = p2.length + 2 := by simp
            rw [hpre, show (108 :: p2 ++ [101]) ++ r = 108 :: (p2 ++ 101 :: r) by simp, hlen]
            exact bvF_list_case (integer_head_fail _ (by omega))
              (byte_string_head_fail _ (by decide)) (listWith_forward hpm')
          · rename_i heqL
            split at h
            · rename_i r ps heq
              simp only [Option.some.injEq, Prod.mk.injEq] at h
              obtain ⟨h1, h2⟩ := h
              subst h1 h2
              obtain ⟨t, ps0, hin, hpm, hres⟩ := dictWith_sound heq
              subst hres
              obtain ⟨p2, hp2⟩ := manyPairF_suffix hpm
              have hpre : pre = 100 :: p2 ++ [101] := by
                have hx : pre ++ r = (100 :: p2 ++ [101]) ++ r := by
                  rw [show (100 :: p2 ++ [101]) ++ r = 100 :: (p2 ++ 101 :: r) by simp]
                  rw [← hp2, ← hin]
                exact List.append_cancel_right hx
              rw [hp2] at hpm
              have hpm' := ihP hpm
              have hlen : (100 :: p2 ++ [101]).length = p2.length + 2 := by simp
              rw [hpre, show (100 :: p2 ++ [101]) ++ r = 100 :: (p2 ++ 101 :: r) by simp, hlen]
              exact bvF_dict_case (integer_head_fail _ (by omega))
                (byte_string_head_fail _ (by decide)) (listWith_head_fail _ _ (by omega))
                (dictWith_forward hpm')
            · exact absurd h (by simp)
    · intro pre rem vs h
      simp only [manyBF] at h
      split at h
      · simp only [Option.some.injEq, Prod.mk.injEq] at h
        obtain ⟨h1, h2⟩ := h
        subst h2
        have hpre : pre = [] := by
          simpa using congrArg List.length h1
        subst hpre
        simpa using manyBF_stop (bencodeValueF_e rem 1)
      · rename_i r1 v heq1
        split at h
        · rename_i hguard
          split at h
          · rename_i r2 vs' heq2
            simp only [Option.some.injEq, Prod.mk.injEq] at h
            obtain ⟨h1, h2⟩ := h
            subst h2
            subst h1
            obtain ⟨p2, hp2⟩ := manyBF_suffix heq2
            obtain ⟨p1, hp1ne, hp1⟩ := bencodeValueF_suffix heq1
            have hpre : pre = p1 ++ p2 := by
              have hx : pre ++ 101 :: rem = (p1 ++ p2) ++ 101 :: rem := by
                rw [List.append_assoc, ← hp2, ← hp1]
              exact List.append_cancel_right hx
            rw [hp2] at heq2
            rw [hp1, hp2] at heq1
            have hp1pos : 0 < p1.length := List.length_pos.mpr hp1ne
            have heq1' := bencodeValueF_mono
              (show p1.length + 1 ≤ p1.length + p2.length + 1 by omega) (ihV heq1)
            have heq2' := manyBF_mono
              (show p2.length + 2 ≤ p1.length + p2.length + 1 by omega) (ihM heq2)
            have hguard' : (p2 ++ 101 :: rem).length < (p1 ++ (p2 ++ 101 :: rem)).length := by
              simp [List.length_append]
              omega
            have hlen : (p1 ++ p2).length = p1.length + p2.length := by simp
            rw [hpre, List.append_assoc, hlen]
            exact manyBF_cons heq1' hguard' heq2'
          · exact absurd h (by simp)
        · exact absurd h (by simp)
    · intro pre rem ps h
      simp only [manyPairF] at h
      split at h
      · rename_i heq
        simp only [Option.some.injEq, Prod.mk.injEq] at h
        obtain ⟨h1, h2⟩ := h
        subst h2
        have hpre : pre = [] := by
          simpa using congrArg List.length h1
        subst hpre
        have hstop : manyPairF (1 + 1) (101 :: rem) = some (101 :: rem, []) :=
          manyPairF_stop_key (byte_string_head_fail rem (by decide))
        simpa using hstop
      · rename_i r1 k heq1
        split at h
        · simp only [Option.some.injEq, Prod.mk.injEq] at h
          obtain ⟨h1, -⟩ := h
          have hpre : pre = [] := by
            simpa using congrArg List.length h1
          subst hpre
          simp only [List.nil_append] at heq1
          have hbs : byte_string (101 :: rem) = none := byte_string_head_fail rem (by decide)
          rw [hbs] at heq1
          exact absurd heq1 (by simp)
        · rename_i r2 v heqV
          split at h
          · rename_i hguard
            split at h
            · rename_i r3 ps' heq2
              simp only [Option.some.injEq, Prod.mk.injEq] at h
              obtain ⟨h1, h2⟩ := h
              subst h2
              subst h1
              obtain ⟨pC, hpC⟩ := manyPairF_suffix heq2
              obtain ⟨pB, hpBne, hpB⟩ := bencodeValueF_suffix heqV
              obtain ⟨pA, hpAne, hpA⟩ := byte_string_suffix heq1
              have hpre : pre = pA ++ (pB ++ pC) := by
                have hx : pre ++ 101 :: rem = (pA ++ (pB ++ pC)) ++ 101 :: rem := by
                  rw [List.append_assoc, List.append_assoc, ← hpC, ← hpB, ← hpA]
                exact List.append_cancel_right hx
              rw [hpC] at heq2
              rw [hpB, hpC] at heqV
              rw [hpA, hpB, hpC] at heq1
              have hApos : 0 < pA.length := List.length_pos.mpr hpAne
              have hBpos : 0 < pB.length := List.length_pos.mpr hpBne
              have heqV' := bencodeValueF_mono
                (show pB.length + 1 ≤ pA.length + (pB.length + pC.length) + 1 by omega)
                (ihV heqV)
              have heq2' := manyPairF_mono
                (show pC.length + 2 ≤ pA.length + (pB.length + pC.length) + 1 by omega)
                (ihP heq2)
              have hguard' : (pC ++ 101 :: rem).length <
                  (pA ++ (pB ++ (pC ++ 101 :: rem))).length := by
                simp [List.length_append]
                omega
              have hlen : (pA ++ (pB ++ pC)).length = pA.length + (pB.length + pC.length) := by
                simp
              rw [hpre, List.append_assoc, List.append_assoc, hlen]
              exact manyPairF_cons heq1 heqV' hguard' heq2'
            · exact absurd h (by simp)
          · exact absurd h (by simp)

/-! ## The byte-lexicographic order and the sorted-map model -/

theorem bytesLt_irrefl : ∀ a, bytesLt a a = false := by
  intro a
  induction a with
  | nil => rfl
  | cons x xs ih => simp [bytesLt, ih]

theorem bytesLt_trans : ∀ a b c, bytesLt a b = true → bytesLt b c = true →
    bytesLt a c = true := by
  intro a
  induction a with
  | nil =>
    intro b c hab hbc
    match b, c with
    | [], _ => simp [bytesLt] at hab
    | _ :: _, [] => simp [bytesLt] at hbc
    | _ :: _, _ :: _ => rfl
  | cons x xs ih =>
    intro b c hab hbc
    match b, c with
    | [], _ => simp [bytesLt] at hab
    | _ :: _, [] => simp [bytesLt] at hbc
    | y :: ys, z :: zs =>
      simp only [bytesLt] at hab hbc ⊢
      by_cases hxy : x < y
      · by_cases hyz : y < z
        · rw [if_pos (by omega)]
        · simp only [if_neg hyz] at hbc
          by_cases hyz' : y = z
          · rw [if_pos (by omega)]
          · simp [hyz'] at hbc
      · simp only [if_neg hxy] at hab
        by_cases hxy' : x = y
        · simp only [if_pos hxy'] at hab
          by_cases hyz : y < z
          · rw [if_pos (by omega)]
          · simp only [if_neg hyz] at hbc
            by_cases hyz' : y = z
            · simp only [if_pos hyz'] at hbc
              rw [if_neg (by omega), if_pos (by omega)]
              exact ih ys zs hab hbc
            · simp [hyz'] at hbc
        · simp [hxy'] at hab

theorem bytesLt_ne {a b : List Nat} (h : bytesLt a b = true) : a ≠ b := by
  intro hab
  rw [hab, bytesLt_irrefl] at h
  exact absurd h (by simp)

theorem bytesLt_asymm {a b : List Nat} (h : bytesLt a b = true) : bytesLt b a = false := by
  by_contra hba
  rw [Bool.not_eq_false] at hba
  have := bytesLt_trans a b a h hba
  rw [bytesLt_irrefl] at this
  exact absurd this (by simp)

theorem bytesLt_total : ∀ a b, bytesLt a b = false → a ≠ b → bytesLt b a = true := by
  intro a
  induction a with
  | nil =>
    intro b hab hne
    match b with
    | [] => exact absurd rfl hne
    | _ :: _ => simp [bytesLt] at hab
  | cons x xs ih =>
    intro b hab hne
    match b with
    | [] => rfl
    | y :: ys =>
      simp only [bytesLt] at hab ⊢
      by_cases hxy : x < y
      · simp [hxy] at hab
      · by_cases hyx : y < x
        · rw [if_pos hyx]
        · have hxy' : x = y := by omega
          simp only [if_neg hxy, if_pos hxy'] at hab
          rw [if_neg hyx, if_pos hxy'.symm]
          refine ih ys hab ?_
          intro hys
          exact hne (by rw [hxy', hys])

/-- The sortedness predicate as a pairwise relation (equivalent to the
adjacent-pairs formulation thanks to transitivity). -/
theorem keysSortedB_iff_pairwise : ∀ ps : List (List Nat × BencodeValue),
    keysSortedB ps = true ↔ List.Pairwise (fun a b => bytesLt a.1 b.1 = true) ps := by
  intro ps
  match ps with
  | [] => simp [keysSortedB]
  | [a] => simp [keysSortedB]
  | a :: b :: t =>
    rw [show keysSortedB (a :: b :: t) = (bytesLt a.1 b.1 && keysSortedB (b :: t)) from rfl]
    constructor
    · intro h
      simp only [Bool.and_eq_true] at h
      obtain ⟨hab, ht⟩ := h
      have ihbt := (keysSortedB_iff_pairwise (b :: t)).mp ht
      refine List.Pairwise.cons ?_ ihbt
      intro y hy
      rcases List.mem_cons.mp hy with rfl | hyt
      · exact hab
      · have hby : bytesLt b.1 y.1 = true := by
          rcases List.pairwise_cons.mp ihbt with ⟨hb, -⟩
          exact hb y hyt
        exact bytesLt_trans _ _ _ hab hby
    · intro h
      rcases List.pairwise_cons.mp h with ⟨ha, ht⟩
      simp only [Bool.and_eq_true]
      exact ⟨ha b (by simp), (keysSortedB_iff_pairwise (b :: t)).mpr ht⟩

theorem mem_insertKV {kv : List Nat × BencodeValue} {k : List Nat} {v : BencodeValue} :
    ∀ {m : List (List Nat × BencodeValue)}, kv ∈ insertKV k v m → kv = (k, v) ∨ kv ∈ m := by
  intro m
  induction m with
  | nil =>
    intro h
    simp [insertKV] at h
    exact Or.inl h
  | cons a rest ih =>
    intro h
    obtain ⟨k', v'⟩ := a
    simp only [insertKV] at h
    split at h
    · rcases List.mem_cons.mp h with rfl | h2
      · exact Or.inl rfl
      · exact Or.inr h2
    · split at h
      · rcases List.mem_cons.mp h with rfl | h2
        · exact Or.inl rfl
        · exact Or.inr (List.mem_cons.mpr (Or.inr h2))
      · rcases List.mem_cons.mp h with rfl | h2
        · exact Or.inr (List.mem_cons.mpr (Or.inl rfl))
        · rcases ih h2 with h3 | h3
          · exact Or.inl h3
          · exact Or.inr (List.mem_cons.mpr (Or.inr h3))

theorem pairwise_insertKV {k : List Nat} {v : BencodeValue} :
    ∀ {m : List (List Nat × BencodeValue)},
      List.Pairwise (fun a b => bytesLt a.1 b.1 = true) m →
      List.Pairwise (fun a b => bytesLt a.1 b.1 = true) (insertKV k v m) := by
  intro m
  induction m with
  | nil =>
    intro _
    simp [insertKV]
  | cons a rest ih =>
    intro h
    obtain ⟨k', v'⟩ := a
    rcases List.pairwise_cons.mp h with ⟨hhead, htail⟩
    simp only [insertKV]
    split
    · rename_i hlt
      refine List.Pairwise.cons ?_ h
      intro y hy
      rcases List.mem_cons.mp hy with rfl | hyt
      · exact hlt
      · exact bytesLt_trans _ _ _ hlt (hhead y hyt)
    · split
      · rename_i hlt heq
        subst heq
        exact List.Pairwise.cons hhead htail
      · rename_i hlt hne
        refine List.Pairwise.cons ?_ (ih htail)
        intro y hy
        rcases mem_insertKV hy with rfl | hyt
        · show bytesLt k' k = true
          exact bytesLt_total k k' (by simpa using hlt) hne
        · exact hhead y hyt

theorem keysSortedB_insertKV {k : List Nat} {v : BencodeValue}
    {m : List (List Nat × BencodeValue)} (h : keysSortedB m = true) :
    keysSortedB (insertKV k v m) = true :=
  (keysSortedB_iff_pairwise _).mpr (pairwise_insertKV ((keysSortedB_iff_pairwise _).mp h))

theorem mapFromList_sorted (ps : List (List Nat × BencodeValue)) :
    keysSortedB (mapFromList ps) = true := by
  suffices h : ∀ m, keysSortedB m = true →
      keysSortedB (List.foldl (fun m kv => insertKV kv.1 kv.2 m) m ps) = true by
    exact h [] rfl
  induction ps with
  | nil => intro m hm; simpa using hm
  | cons kv ps ih =>
    intro m hm
    exact ih (insertKV kv.1 kv.2 m) (keysSortedB_insertKV hm)

theorem insertKV_append_of_all_lt {k : List Nat} {v : BencodeValue} :
    ∀ {m : List (List Nat × BencodeValue)}, (∀ kv ∈ m, bytesLt kv.1 k = true) →
      insertKV k v m = m ++ [(k, v)] := by
  intro m
  induction m with
  | nil => intro _; rfl
  | cons a rest ih =>
    intro hall
    obtain ⟨k', v'⟩ := a
    have hk' : bytesLt k' k = true := hall (k', v') (by simp)
    simp only [insertKV]
    rw [if_neg (by rw [bytesLt_asymm hk']; simp), if_neg (Ne.symm (bytesLt_ne hk')),
      ih (fun kv hkv => hall kv (by simp [hkv]))]
    simp

theorem keysSortedB_append_all_lt {m : List (List Nat × BencodeValue)}
    {k : List Nat} {v : BencodeValue} {ps : List (List Nat × BencodeValue)}
    (h : keysSortedB (m ++ (k, v) :: ps) = true) : ∀ kv ∈ m, bytesLt kv.1 k = true := by
  have hp := (keysSortedB_iff_pairwise _).mp h
  rw [List.pairwise_append] at hp
  intro kv hkv
  exact hp.2.2 kv hkv (k, v) (by simp)

theorem mapFromList_sorted_id {ps : List (List Nat × BencodeValue)}
    (h : keysSortedB ps = true) : mapFromList ps = ps := by
  suffices hgen : ∀ (qs m : List (List Nat × BencodeValue)), keysSortedB (m ++ qs) = true →
      List.foldl (fun m kv => insertKV kv.1 kv.2 m) m qs = m ++ qs by
    simpa using hgen ps [] (by simpa using h)
  intro qs
  induction qs with
  | nil => intro m _; simp
  | cons kv qs ih =>
    intro m hm
    obtain ⟨k, v⟩ := kv
    have hins : insertKV k v m = m ++ [(k, v)] :=
      insertKV_append_of_all_lt (keysSortedB_append_all_lt hm)
    have hm' : keysSortedB ((m ++ [(k, v)]) ++ qs) = true := by
      rw [List.append_assoc]
      simpa using hm
    calc List.foldl (fun m kv => insertKV kv.1 kv.2 m) m ((k, v) :: qs)
        = List.foldl (fun m kv => insertKV kv.1 kv.2 m) (insertKV k v m) qs := rfl
      _ = List.foldl (fun m kv => insertKV kv.1 kv.2 m) (m ++ [(k, v)]) qs := by rw [hins]
      _ = (m ++ [(k, v)]) ++ qs := ih (m ++ [(k, v)]) hm'
      _ = m ++ (k, v) :: qs := by simp

theorem lookupKV_insertKV (k k' : List Nat) (v : BencodeValue) :
    ∀ m : List (List Nat × BencodeValue),
      lookupKV k (insertKV k' v m) = if k' = k then some v else lookupKV k m := by
  intro m
  induction m with
  | nil => simp [insertKV, lookupKV]
  | cons a rest ih =>
    obtain ⟨k0, v0⟩ := a
    simp only [insertKV]
    split
    · simp only [lookupKV]
    · split
      · rename_i hlt heq
        subst heq
        simp only [lookupKV]
        split
        · rfl
        · rfl
      · rename_i hlt hne
        simp only [lookupKV]
        by_cases hk0 : k0 = k
        · have hk' : ¬ k' = k := by rw [← hk0]; exact hne
          rw [if_pos hk0, if_neg hk', if_pos hk0]
        · rw [if_neg hk0, if_neg hk0, ih]

theorem lookupKV_mapFromList (k : List Nat) (ps : List (List Nat × BencodeValue)) :
    lookupKV k (mapFromList ps) = lastVal k ps := by
  suffices hgen : ∀ (qs : List (List Nat × BencodeValue)) (m : List (List Nat × BencodeValue)),
      lookupKV k (List.foldl (fun m kv => insertKV kv.1 kv.2 m) m qs) =
        match lastVal k qs with
        | some w => some w
        | none => lookupKV k m by
    have := hgen ps []
    rw [mapFromList, this]
    match h : lastVal k ps with
    | some w => rfl
    | none => simp [lookupKV]
  intro qs
  induction qs with
  | nil => intro m; rfl
  | cons kv qs ih =>
    intro m
    obtain ⟨k', v'⟩ := kv
    have step : List.foldl (fun m kv => insertKV kv.1 kv.2 m) m ((k', v') :: qs) =
        List.foldl (fun m kv => insertKV kv.1 kv.2 m) (insertKV k' v' m) qs := rfl
    rw [step, ih (insertKV k' v' m), lookupKV_insertKV]
    simp only [lastVal]
    match hl : lastVal k qs with
    | some w => rfl
    | none => by_cases hk : k' = k <;> simp [hk]

theorem lookupKV_head (k : List Nat) (v : BencodeValue)
    (t : List (List Nat × BencodeValue)) : lookupKV k ((k, v) :: t) = some v := by
  simp [lookupKV]

theorem lookupKV_not_mem {k : List Nat} :
    ∀ {m : List (List Nat × BencodeValue)}, k ∉ m.map Prod.fst → lookupKV k m = none := by
  intro m
  induction m with
  | nil => intro _; rfl
  | cons a t ih =>
    intro h
    obtain ⟨k0, v0⟩ := a
    simp only [List.map_cons, List.mem_cons] at h
    push_neg at h
    simp only [lookupKV]
    rw [if_neg (by exact fun he => h.1 he.symm), ih h.2]

theorem lookupKV_mem {k : List Nat} {v : BencodeValue} :
    ∀ {m : List (List Nat × BencodeValue)}, lookupKV k m = some v → (k, v) ∈ m := by
  intro m
  induction m with
  | nil => intro h; exact absurd h (by simp [lookupKV])
  | cons a t ih =>
    intro h
    obtain ⟨k0, v0⟩ := a
    simp only [lookupKV] at h
    split at h
    · rename_i he
      simp only [Option.some.injEq] at h
      subst he h
      exact List.mem_cons.mpr (Or.inl rfl)
    · exact List.mem_cons.mpr (Or.inr (ih h))

theorem lookupKV_mem_keys {k : List Nat} {v : BencodeValue}
    {m : List (List Nat × BencodeValue)} (h : lookupKV k m = some v) :
    k ∈ m.map Prod.fst := by
  have := lookupKV_mem h
  exact List.mem_map.mpr ⟨(k, v), this, rfl⟩

theorem lookupKV_tail_none {k : List Nat} {v : BencodeValue}
    {t : List (List Nat × BencodeValue)}
    (h : List.Pairwise (fun a b => bytesLt a.1 b.1 = true) ((k, v) :: t)) :
    lookupKV k t = none := by
  rcases List.pairwise_cons.mp h with ⟨hhead, -⟩
  refine lookupKV_not_mem ?_
  intro hk
  obtain ⟨⟨ky, vy⟩, hmem, hky⟩ := List.mem_map.mp hk
  have := hhead (ky, vy) hmem
  simp only at hky
  subst hky
  exact absurd this (by rw [bytesLt_irrefl]; simp)

theorem sortedKV_ext : ∀ {m1 m2 : List (List Nat × BencodeValue)},
    keysSortedB m1 = true → keysSortedB m2 = true →
    (∀ k, lookupKV k m1 = lookupKV k m2) → m1 = m2 := by
  intro m1
  induction m1 with
  | nil =>
    intro m2 _ h2 hl
    match m2 with
    | [] => rfl
    | (k2, v2) :: t2 =>
      have := hl k2
      rw [lookupKV_head] at this
      exact absurd this.symm (by simp [lookupKV])
  | cons a t1 ih =>
    intro m2 h1 h2 hl
    obtain ⟨k1, v1⟩ := a
    match m2 with
    | [] =>
      have := hl k1
      rw [lookupKV_head] at this
      exact absurd this (by simp [lookupKV])
    | (k2, v2) :: t2 =>
      have hp1 := (keysSortedB_iff_pairwise _).mp h1
      have hp2 := (keysSortedB_iff_pairwise _).mp h2
      have hk12 : k1 = k2 := by
        by_contra hne
        have ha := hl k1
        rw [lookupKV_head] at ha
        have hb := hl k2
        rw [lookupKV_head] at hb
        have ha' : lookupKV k1 t2 = some v1 := by
          rw [show lookupKV k1 ((k2, v2) :: t2) = lookupKV k1 t2 by
            simp only [lookupKV]; rw [if_neg (fun he => hne he.symm)]] at ha
          exact ha.symm
        have hb' : lookupKV k2 t1 = some v2 := by
          rw [show lookupKV k2 ((k1, v1) :: t1) = lookupKV k2 t1 by
            simp only [lookupKV]; rw [if_neg hne]] at hb
          exact hb
        have hlt1 : bytesLt k2 k1 = true := by
          rcases List.pairwise_cons.mp hp2 with ⟨hh2, -⟩
          obtain ⟨⟨ky, vy⟩, hmem, hky⟩ := List.mem_map.mp (lookupKV_mem_keys ha')
          have := hh2 (ky, vy) hmem
          simp only at hky
          rw [hky] at this
          exact this
        have hlt2 : bytesLt k1 k2 = true := by
          rcases List.pairwise_cons.mp hp1 with ⟨hh1, -⟩
          obtain ⟨⟨ky, vy⟩, hmem, hky⟩ := List.mem_map.mp (lookupKV_mem_keys hb')
          have := hh1 (ky, vy) hmem
          simp only at hky
          rw [hky] at this
          exact this
        rw [bytesLt_asymm hlt2] at hlt1
        exact absurd hlt1 (by simp)
      subst hk12
      have hv12 : v1 = v2 := by
        have := hl k1
        rw [lookupKV_head, lookupKV_head] at this
        simpa using this
      subst hv12
      have htail : ∀ k, lookupKV k t1 = lookupKV k t2 := by
        intro k
        by_cases hk : k1 = k
        · subst hk
          rw [lookupKV_tail_none hp1, lookupKV_tail_none hp2]
        · have := hl k
          simp only [lookupKV] at this
          rw [if_neg hk, if_neg hk] at this
          exact this
      have hts1 : keysSortedB t1 = true :=
        (keysSortedB_iff_pairwise _).mpr (List.pairwise_cons.mp hp1).2
      have hts2 : keysSortedB t2 = true :=
        (keysSortedB_iff_pairwise _).mpr (List.pairwise_cons.mp hp2).2
      rw [ih hts1 hts2 htail]

theorem lastVal_not_mem {k : List Nat} :
    ∀ {ps : List (List Nat × BencodeValue)}, k ∉ ps.map Prod.fst → lastVal k ps = none := by
  intro ps
  induction ps with
  | nil => intro _; rfl
  | cons a t ih =>
    intro h
    obtain ⟨k0, v0⟩ := a
    simp only [List.map_cons, List.mem_cons] at h
    push_neg at h
    simp only [lastVal, ih h.2]
    rw [if_neg (by exact fun he => h.1 he.symm)]

theorem lastVal_eq_lookupKV_of_nodup {k : List Nat} :
    ∀ {ps : List (List Nat × BencodeValue)}, (ps.map Prod.fst).Nodup →
      lastVal k ps = lookupKV k ps := by
  intro ps
  induction ps with
  | nil => intro _; rfl
  | cons a t ih =>
    intro h
    obtain ⟨k0, v0⟩ := a
    simp only [List.map_cons, List.nodup_cons] at h
    obtain ⟨hk0, hnd⟩ := h
    simp only [lastVal, lookupKV]
    by_cases hk : k0 = k
    · subst hk
      rw [lastVal_not_mem hk0]
      simp
    · rw [ih hnd]
      match hlv : lookupKV k t with
      | some w => simp [hk]
      | none => simp [hk]

theorem lookupKV_of_mem_nodup {k : List Nat} {v : BencodeValue} :
    ∀ {ps : List (List Nat × BencodeValue)}, (ps.map Prod.fst).Nodup → (k, v) ∈ ps →
      lookupKV k ps = some v := by
  intro ps
  induction ps with
  | nil => intro _ h; simp at h
  | cons a t ih =>
    intro hnd hmem
    obtain ⟨k0, v0⟩ := a
    simp only [List.map_cons, List.nodup_cons] at hnd
    obtain ⟨hk0, hnd'⟩ := hnd
    rcases List.mem_cons.mp hmem with heq | hmem'
    · injection heq with h1 h2
      subst h1 h2
      simp [lookupKV]
    · simp only [lookupKV]
      by_cases hk : k0 = k
      · subst hk
        exact absurd (List.mem_map.mpr ⟨(k0, v), hmem', rfl⟩) hk0
      · rw [if_neg hk]
        exact ih hnd' hmem'

theorem lookupKV_none_not_mem {k : List Nat} :
    ∀ {ps : List (List Nat × BencodeValue)}, lookupKV k ps = none → k ∉ ps.map Prod.fst := by
  intro ps
  induction ps with
  | nil => intro _ h; simp at h
  | cons a t ih =>
    intro h hk
    obtain ⟨k0, v0⟩ := a
    simp only [lookupKV] at h
    split at h
    · exact absurd h (by simp)
    · rename_i hne
      simp only [List.map_cons, List.mem_cons] at hk
      rcases hk with rfl | hk'
      · exact hne rfl
      · exact ih h hk'

theorem lookupKV_perm_of_nodup {ps qs : List (List Nat × BencodeValue)} (k : List Nat)
    (hperm : ps.Perm qs) (hnd : (ps.map Prod.fst).Nodup) :
    lookupKV k ps = lookupKV k qs := by
  have hndq : (qs.map Prod.fst).Nodup := ((hperm.map Prod.fst).nodup_iff).mp hnd
  match hlv : lookupKV k ps with
  | some v =>
    exact (lookupKV_of_mem_nodup hndq (hperm.mem_iff.mp (lookupKV_mem hlv))).symm
  | none =>
    have hnm := lookupKV_none_not_mem hlv
    have : k ∉ qs.map Prod.fst := by
      intro hkq
      exact hnm (((hperm.map Prod.fst).mem_iff).mpr hkq)
    exact (lookupKV_not_mem this).symm

theorem mapFromList_perm {ps qs : List (List Nat × BencodeValue)} (hperm : ps.Perm qs)
    (hnd : (ps.map Prod.fst).Nodup) : mapFromList ps = mapFromList qs := by
  have hndq : (qs.map Prod.fst).Nodup := ((hperm.map Prod.fst).nodup_iff).mp hnd
  refine sortedKV_ext (mapFromList_sorted ps) (mapFromList_sorted qs) ?_
  intro k
  rw [lookupKV_mapFromList, lookupKV_mapFromList, lastVal_eq_lookupKV_of_nodup hnd,
    lastVal_eq_lookupKV_of_nodup hndq]
  exact lookupKV_perm_of_nodup k hperm hnd

/-! ## Round trip: parsing the canonical encoding -/

theorem natDigits_length_pos (n : Nat) : 0 < (natDigits n).length :=
  List.length_pos.mpr (natDigits_ne_nil n)

theorem encBytes_length_pos (v : BencodeValue) : 0 < (encBytes v).length := by
  cases v with
  | integer i => simp [encBytes]
  | byteString bs => simp [encBytes]
  | list vs => simp [encBytes]
  | dict ps => simp [encBytes]

theorem natDigits_head_not105 (n : Nat) (t : List Nat) :
    integer (natDigits n ++ t) = none := by
  match hnd : natDigits n with
  | [] => exact absurd hnd (natDigits_ne_nil n)
  | d :: ds =>
    have hd : 48 ≤ d ∧ d ≤ 57 := natDigits_mem_digit n d (by rw [hnd]; simp)
    exact integer_head_fail _ (by omega)

mutual
theorem roundtripV : ∀ (v : BencodeValue), wfV v = true → ∀ (f : Nat) (rest : List Nat),
    (encBytes v).length ≤ f → bencodeValueF f (encBytes v ++ rest) = some (rest, v)
  | .integer i => by
    intro hwf f rest hf
    simp only [wfV, decide_eq_true_eq] at hwf
    have hlen : 0 < (encBytes (.integer i)).length := encBytes_length_pos _
    match f, (by omega : 1 ≤ f) with
    | g + 1, _ =>
      by_cases hneg : i < 0
      · have hn0 : i.natAbs ≠ 0 := by
          intro h0
          rw [Int.natAbs_eq_zero] at h0
          omega
        have hform : encBytes (.integer i) ++ rest =
            105 :: 45 :: (natDigits i.natAbs ++ 101 :: rest) := by
          simp [encBytes, intDigits, if_pos hneg]
        rw [hform]
        have := integer_natDigits_neg i.natAbs rest hn0
        rw [if_pos hwf] at this
        have hval : -(i.natAbs : Int) = i := by
          omega
        rw [hval] at this
        exact bvF_int_case this
      · have hform : encBytes (.integer i) ++ rest =
            105 :: (natDigits i.natAbs ++ 101 :: rest) := by
          simp [encBytes, intDigits, if_neg hneg]
        rw [hform]
        have := integer_natDigits_pos i.natAbs rest
        rw [if_pos hwf] at this
        have hval : ((i.natAbs : Int)) = i := by
          omega
        rw [hval] at this
        exact bvF_int_case this
  | .byteString bs => by
    intro hwf f rest hf
    simp only [wfV, decide_eq_true_eq] at hwf
    match f, (by have := encBytes_length_pos (.byteString bs); omega : 1 ≤ f) with
    | g + 1, _ =>
      have hform : encBytes (.byteString bs) ++ rest =
          natDigits bs.length ++ 58 :: (bs ++ rest) := by
        simp [encBytes]
      rw [hform]
      refine bvF_bs_case ?_ ?_
      · exact natDigits_head_not105 bs.length _
      · exact byte_string_natDigits bs.length bs rest rfl hwf
  | .list vs => by
    intro hwf f rest hf
    simp only [wfV] at hwf
    have hlen : (encBytes (.list vs)).length = (encListBytes vs).length + 2 := by
      simp [encBytes]
    match f, (by omega : (encListBytes vs).length + 2 ≤ f) with
    | g + 1, hg =>
      have hform : encBytes (.list vs) ++ rest =
          108 :: (encListBytes vs ++ 101 :: rest) := by
        simp [encBytes]
      rw [hform]
      refine bvF_list_case (integer_head_fail _ (by omega))
        (byte_string_head_fail _ (by decide)) ?_
      refine listWith_forward (roundtripL vs hwf g rest (by omega))
  | .dict ps => by
    intro hwf f rest hf
    simp only [wfV, Bool.and_eq_true] at hwf
    obtain ⟨hsort, hwfp⟩ := hwf
    have hlen : (encBytes (.dict ps)).length = (encDictBytes ps).length + 2 := by
      simp [encBytes]
    match f, (by omega : (encDictBytes ps).length + 2 ≤ f) with
    | g + 1, hg =>
      have hform : encBytes (.dict ps) ++ rest =
          100 :: (encDictBytes ps ++ 101 :: rest) := by
        simp [encBytes]
      rw [hform]
      have hmap : mapFromList ps = ps := mapFromList_sorted_id hsort
      have := bvF_dict_case (integer_head_fail _ (by omega))
        (byte_string_head_fail _ (by decide)) (listWith_head_fail _ _ (by omega))
        (dictWith_forward (roundtripP ps hwfp g rest (by omega)))
      rw [hmap] at this
      exact this

theorem roundtripL : ∀ (vs : List BencodeValue), wfL vs = true → ∀ (f : Nat) (rest : List Nat),
    (encListBytes vs).length + 1 ≤ f →
    manyBF f (encListBytes vs ++ 101 :: rest) = some (101 :: rest, vs)
  | [] => by
    intro _ f rest hf
    match f, hf with
    | g + 1, _ =>
      have : encListBytes [] ++ 101 :: rest = 101 :: rest := by simp [encListBytes]
      rw [this]
      exact manyBF_stop (bencodeValueF_e rest g)
  | v :: vs => by
    intro hwf f rest hf
    simp only [wfL, Bool.and_eq_true] at hwf
    obtain ⟨hwv, hwvs⟩ := hwf
    have hlen : (encListBytes (v :: vs)).length =
        (encBytes v).length + (encListBytes vs).length := by
      simp [encListBytes]
    match f, (by omega : 1 ≤ f) with
    | g + 1, _ =>
      have hform : encListBytes (v :: vs) ++ 101 :: rest =
          encBytes v ++ (encListBytes vs ++ 101 :: rest) := by
        simp [encListBytes]
      rw [hform]
      have hvpos := encBytes_length_pos v
      have helem := roundtripV v hwv g (encListBytes vs ++ 101 :: rest) (by omega)
      have hguard : (encListBytes vs ++ 101 :: rest).length <
          (encBytes v ++ (encListBytes vs ++ 101 :: rest)).length := by
        simp [List.length_append]
        omega
      have hrec := roundtripL vs hwvs g rest (by omega)
      exact manyBF_cons helem hguard hrec

theorem roundtripP : ∀ (ps : List (List Nat × BencodeValue)), wfP ps = true →
    ∀ (f : Nat) (rest : List Nat), (encDictBytes ps).length + 1 ≤ f →
    manyPairF f (encDictBytes ps ++ 101 :: rest) = some (101 :: rest, ps)
  | [] => by
    intro _ f rest hf
    match f, hf with
    | g + 1, _ =>
      have : encDictBytes [] ++ 101 :: rest = 101 :: rest := by simp [encDictBytes]
      rw [this]
      exact manyPairF_stop_key (byte_string_head_fail rest (by decide))
  | (k, v) :: ps => by
    intro hwf f rest hf
    simp only [wfP, Bool.and_eq_true, decide_eq_true_eq] at hwf
    obtain ⟨⟨hk, hwv⟩, hwps⟩ := hwf
    have hlen : (encDictBytes ((k, v) :: ps)).length =
        ((natDigits k.length).length + 1 + k.length) + (encBytes v).length +
          (encDictBytes ps).length := by
      simp [encDictBytes, List.length_append]
      omega
    match f, (by omega : 1 ≤ f) with
    | g + 1, _ =>
      have hform : encDictBytes ((k, v) :: ps) ++ 101 :: rest =
          natDigits k.length ++ 58 :: (k ++ (encBytes v ++ (encDictBytes ps ++ 101 :: rest))) := by
        simp [encDictBytes]
      rw [hform]
      have hkey : byte_string
          (natDigits k.length ++ 58 :: (k ++ (encBytes v ++ (encDictBytes ps ++ 101 :: rest)))) =
          some (encBytes v ++ (encDictBytes ps ++ 101 :: rest), k) :=
        byte_string_natDigits k.length k _ rfl hk
      have hvpos := encBytes_length_pos v
      have hdigpos := natDigits_length_pos k.length
      have hval := roundtripV v hwv g (encDictBytes ps ++ 101 :: rest) (by omega)
      have hguard : (encDictBytes ps ++ 101 :: rest).length <
          (natDigits k.length ++ 58 ::
            (k ++ (encBytes v ++ (encDictBytes ps ++ 101 :: rest)))).length := by
        simp [List.length_append]
        omega
      have hrec := roundtripP ps hwps g rest (by omega)
      exact manyPairF_cons hkey hval hguard hrec
end

/-! ## The encoder's Result is always Ok -/

mutual
theorem encode_value_ok : ∀ (v : BencodeValue) (out : List Nat),
    encode_value v out = .ok (out ++ encBytes v)
  | .integer i, out => by simp [encode_value, encBytes]
  | .byteString bs, out => by simp [encode_value, encBytes]
  | .list vs, out => by
    rw [encode_value, encode_value_items_ok vs (out ++ [108])]
    simp [encBytes]
  | .dict ps, out => by
    rw [encode_value, encode_value_pairs_ok ps (out ++ [100])]
    simp [encBytes]

theorem encode_value_items_ok : ∀ (vs : List BencodeValue) (out : List Nat),
    encode_value_items vs out = .ok (out ++ encListBytes vs)
  | [], out => by simp [encode_value_items, encListBytes]
  | v :: vs, out => by
    rw [encode_value_items, encode_value_ok v out]
    show encode_value_items vs (out ++ encBytes v) = _
    rw [encode_value_items_ok vs (out ++ encBytes v)]
    simp [encListBytes]

theorem encode_value_pairs_ok : ∀ (ps : List (List Nat × BencodeValue)) (out : List Nat),
    encode_value_pairs ps out = .ok (out ++ encDictBytes ps)
  | [], out => by simp [encode_value_pairs, encDictBytes]
  | (k, v) :: ps, out => by
    rw [encode_value_pairs, encode_value_ok v (out ++ (natDigits k.length ++ 58 :: k))]
    show encode_value_pairs ps (out ++ (natDigits k.length ++ 58 :: k) ++ encBytes v) = _
    rw [encode_value_pairs_ok ps (out ++ (natDigits k.length ++ 58 :: k) ++ encBytes v)]
    simp [encDictBytes]
end

theorem encode_to_bytes_ok (v : BencodeValue) : encode_to_bytes v = .ok (encBytes v) := by
  rw [encode_to_bytes, encode_value_ok]
  simp

theorem utf8Strict_lossy {bs : List Nat} {cps : List Nat}
    (h : utf8DecodeStrict bs = some cps) : utf8Lossy bs = cps := by
  simp only [utf8DecodeStrict] at h
  split at h
  · simpa [utf8Lossy] using h
  · exact absurd h (by simp)

theorem encode_to_string_ok (v : BencodeValue) :
    encode_to_string v = .ok (utf8Lossy (encBytes v)) := by
  rw [encode_to_string, encode_to_bytes_ok]
  show (match utf8DecodeStrict (encBytes v) with
        | some s => Except.ok s
        | none => Except.ok (utf8Lossy (encBytes v))) = Except.ok (utf8Lossy (encBytes v))
  cases h : utf8DecodeStrict (encBytes v) with
  | some s => rw [utf8Strict_lossy h]
  | none => rfl

/-! ## Top-level prefix/translation wrappers -/

theorem parse_bencode_translate {pre rem rest : List Nat} {v : BencodeValue}
    (h : parse_bencode (pre ++ rem) = some (rem, v)) :
    parse_bencode (pre ++ rest) = some (rest, v) := by
  rw [parse_bencode] at h ⊢
  have h1 := (parsers_minfuel ((pre ++ rem).length + 1)).1 h
  have h2 : bencodeValueF (pre.length + 1) (pre ++ rest) = some (rest, v) :=
    (parsers_translate (pre.length + 1)).1 h1
  refine bencodeValueF_mono ?_ h2
  simp [List.length_append]

theorem list_suffix {input rem : List Nat} {vs : List BencodeValue}
    (h : list input = some (rem, vs)) : ∃ pre, pre ≠ [] ∧ input = pre ++ rem := by
  simp only [list] at h
  obtain ⟨t, hin, hpm⟩ := listWith_sound h
  obtain ⟨p2, hp2⟩ := manyBF_suffix hpm
  refine ⟨108 :: p2 ++ [101], by simp, ?_⟩
  rw [hin, hp2]
  simp

theorem list_translate {pre rem rest : List Nat} {vs : List BencodeValue}
    (h : list (pre ++ rem) = some (rem, vs)) : list (pre ++ rest) = some (rest, vs) := by
  simp only [list] at h ⊢
  obtain ⟨t, hin, hpm⟩ := listWith_sound h
  obtain ⟨p2, hp2⟩ := manyBF_suffix hpm
  have hpre : pre = 108 :: p2 ++ [101] := by
    have hx : pre ++ rem = (108 :: p2 ++ [101]) ++ rem := by
      rw [show (108 :: p2 ++ [101]) ++ rem = 108 :: (p2 ++ 101 :: rem) by simp]
      rw [← hp2, ← hin]
    exact List.append_cancel_right hx
  rw [hp2] at hpm
  have h1 := (parsers_minfuel ((pre ++ rem).length + 1)).2.1 hpm
  have h2 : manyBF (p2.length + 2) (p2 ++ 101 :: rest) = some (101 :: rest, vs) :=
    (parsers_translate (p2.length + 2)).2.1 h1
  subst hpre
  rw [show (108 :: p2 ++ [101]) ++ rest = 108 :: (p2 ++ 101 :: rest) by simp]
  refine listWith_forward (manyBF_mono ?_ h2)
  simp [List.length_append]

theorem dictionary_suffix {input rem : List Nat} {ps : List (List Nat × BencodeValue)}
    (h : dictionary input = some (rem, ps)) : ∃ pre, pre ≠ [] ∧ input = pre ++ rem := by
  simp only [dictionary] at h
  obtain ⟨t, ps0, hin, hpm, -⟩ := dictWith_sound h
  obtain ⟨p2, hp2⟩ := manyPairF_suffix hpm
  refine ⟨100 :: p2 ++ [101], by simp, ?_⟩
  rw [hin, hp2]
  simp

theorem dictionary_translate {pre rem rest : List Nat} {ps : List (List Nat × BencodeValue)}
    (h : dictionary (pre ++ rem) = some (rem, ps)) :
    dictionary (pre ++ rest) = some (rest, ps) := by
  simp only [dictionary] at h ⊢
  obtain ⟨t, ps0, hin, hpm, hres⟩ := dictWith_sound h
  subst hres
  obtain ⟨p2, hp2⟩ := manyPairF_suffix hpm
  have hpre : pre = 100 :: p2 ++ [101] := by
    have hx : pre ++ rem = (100 :: p2 ++ [101]) ++ rem := by
      rw [show (100 :: p2 ++ [101]) ++ rem = 100 :: (p2 ++ 101 :: rem) by simp]
      rw [← hp2, ← hin]
    exact List.append_cancel_right hx
  rw [hp2] at hpm
  have h1 := (parsers_minfuel ((pre ++ rem).length + 1)).2.2 hpm
  have h2 : manyPairF (p2.length + 2) (p2 ++ 101 :: rest) = some (101 :: rest, ps0) :=
    (parsers_translate (p2.length + 2)).2.2 h1
  rw [hpre, show (100 :: p2 ++ [101]) ++ rest = 100 :: (p2 ++ 101 :: rest) by simp]
  refine dictWith_forward ?_
  refine manyPairF_mono ?_ h2
  simp [List.length_append]

/-! ## The claims -/

/-- C1 (counterexample): the round-trip claim fails as stated on the Rust
value `BencodeValue::Integer(isize::MIN)`.  Encoding it succeeds and produces
the canonical bytes `i-9223372036854775808e`, but `parse_bencode` rejects
those bytes: `from_integer_digits` parses the magnitude `2^63` as `isize`
before applying the sign, and `2^63 > isize::MAX` is an overflow failure.  So
`parse_bencode(encode_to_bytes(v))` is an error, not `Ok(([], v))`. -/
theorem c1_roundtrip_counterexample :
    encode_to_bytes (.integer isizeMin) = .ok (strBytes "i-9223372036854775808e") ∧
    parse_bencode (strBytes "i-9223372036854775808e") = none ∧
    parse_bencode (encBytes (.integer isizeMin)) = none :=
  ⟨rfl, rfl, rfl⟩

/-- C1 (amended): for every well-formed value — dictionaries in the sorted
`BTreeMap` representation, lengths representable in `usize`, and every
integer of magnitude at most `isize::MAX` (which excludes only
`isize::MIN`) — encoding succeeds and parsing the canonical encoding
succeeds, consumes it entirely, and returns the same value. -/
theorem c1_roundtrip : ∀ v : BencodeValue, wfV v = true →
    encode_to_bytes v = .ok (encBytes v) ∧ parse_bencode (encBytes v) = some ([], v) := by
  intro v hwf
  refine ⟨encode_to_bytes_ok v, ?_⟩
  rw [parse_bencode]
  have h := roundtripV v hwf ((encBytes v).length + 1) [] (by omega)
  rw [List.append_nil] at h
  exact h

/-- C1 (witness): the amended round trip at a concrete nested value. -/
theorem c1_roundtrip_witness :
    encode_to_bytes (.list [.integer 42, .byteString (strBytes "ab")]) =
      .ok (encBytes (.list [.integer 42, .byteString (strBytes "ab")])) ∧
    parse_bencode (encBytes (.list [.integer 42, .byteString (strBytes "ab")])) =
      some ([], .list [.integer 42, .byteString (strBytes "ab")]) :=
  c1_roundtrip (.list [.integer 42, .byteString (strBytes "ab")]) (by decide)

/-- C2: the encoder emits dictionary pairs in strictly ascending
byte-lexicographic key order, and the encoding is independent of the
insertion order of the pairs (for distinct keys); in particular the
spam/eggs–cow/moo dictionary encodes to `d3:cow3:moo4:spam4:eggse` from
either insertion order. -/
theorem c2_dict_key_order :
    (∀ ps qs : List (List Nat × BencodeValue), ps.Perm qs → (ps.map Prod.fst).Nodup →
      keysSortedB (mapFromList ps) = true ∧
      encBytes (.dict (mapFromList ps)) = encBytes (.dict (mapFromList qs))) ∧
    encBytes (.dict (mapFromList
      [(strBytes "spam", .byteString (strBytes "eggs")),
       (strBytes "cow", .byteString (strBytes "moo"))])) =
      strBytes "d3:cow3:moo4:spam4:eggse" ∧
    encBytes (.dict (mapFromList
      [(strBytes "cow", .byteString (strBytes "moo")),
       (strBytes "spam", .byteString (strBytes "eggs"))])) =
      strBytes "d3:cow3:moo4:spam4:eggse" := by
  refine ⟨?_, rfl, rfl⟩
  intro ps qs hperm hnd
  exact ⟨mapFromList_sorted ps, by rw [mapFromList_perm hperm hnd]⟩

/-- C2 (witness): both insertion orders of the spam/cow dictionary produce a
key-sorted map with the same encoding. -/
theorem c2_dict_key_order_witness :
    keysSortedB (mapFromList
      [(strBytes "spam", .byteString (strBytes "eggs")),
       (strBytes "cow", .byteString (strBytes "moo"))]) = true ∧
    encBytes (.dict (mapFromList
      [(strBytes "spam", .byteString (strBytes "eggs")),
       (strBytes "cow", .byteString (strBytes "moo"))])) =
    encBytes (.dict (mapFromList
      [(strBytes "cow", .byteString (strBytes "moo")),
       (strBytes "spam", .byteString (strBytes "eggs"))])) :=
  c2_dict_key_order.1 _ _ (List.Perm.swap _ _ []) (by decide)

/-- C3 (counterexample): the literal `i-9223372036854775808e` is
well-delimited, has no leading zeros and is not negative zero, and its value
`-2^63` fits in `isize` (it is exactly `isize::MIN`), yet the integer parser
fails on it: the magnitude is parsed as `isize` before negation and
overflows. -/
theorem c3_integer_counterexample :
    integer (strBytes "i-9223372036854775808e") = none ∧
    isizeMin ≤ -(9223372036854775808 : Int) ∧
    -(9223372036854775808 : Int) ≤ (isizeMax : Int) :=
  ⟨rfl, by decide, by decide⟩

/-- C3 (amended): for a well-delimited literal `i<digits>e` or `i-<digits>e`
with canonical digits (no leading zeros, no negative zero), the parser
succeeds with the denoted value exactly when the digit magnitude is at most
`isize::MAX = 2^63 - 1`, and fails otherwise — so the magnitude bound, not
the signed range, decides success, and `isize::MIN`'s literal is rejected
even though the value fits the type. -/
theorem c3_integer_parse :
    (∀ (n : Nat) (tail : List Nat),
      integer (105 :: (natDigits n ++ 101 :: tail)) =
        if n ≤ isizeMax then some (tail, (n : Int)) else none) ∧
    (∀ (n : Nat) (tail : List Nat), n ≠ 0 →
      integer (105 :: 45 :: (natDigits n ++ 101 :: tail)) =
        if n ≤ isizeMax then some (tail, -(n : Int)) else none) :=
  ⟨integer_natDigits_pos, integer_natDigits_neg⟩

/-- C3 (witness): the amended statement at concrete literals `i42e` and
`i-7e`. -/
theorem c3_integer_parse_witness :
    integer (105 :: (natDigits 42 ++ 101 :: [])) =
      (if 42 ≤ isizeMax then some (([] : List Nat), (42 : Int)) else none) ∧
    integer (105 :: 45 :: (natDigits 7 ++ 101 :: [])) =
      (if 7 ≤ isizeMax then some (([] : List Nat), -(7 : Int)) else none) :=
  ⟨c3_integer_parse.1 42 [], c3_integer_parse.2 7 [] (by decide)⟩

/-- C4: duplicate dictionary keys are not rejected — parsing succeeds and the
collected mapping holds, for each key, the value of its last occurrence in
the input, because `collect` into the map inserts pairs in input order with
later inserts overwriting earlier ones. -/
theorem c4_duplicate_keys :
    dictionary (strBytes "d3:fooi1e3:fooi2ee") =
      some ([], [(strBytes "foo", .integer 2)]) ∧
    (∀ (ps : List (List Nat × BencodeValue)) (k : List Nat),
      lookupKV k (mapFromList ps) = lastVal k ps) :=
  ⟨rfl, fun ps k => lookupKV_mapFromList k ps⟩

/-- C4 (witness): last-write-wins at a concrete duplicated key. -/
theorem c4_duplicate_keys_witness :
    lookupKV (strBytes "a")
      (mapFromList [(strBytes "a", .integer 1), (strBytes "a", .integer 2)]) =
    lastVal (strBytes "a") [(strBytes "a", .integer 1), (strBytes "a", .integer 2)] :=
  c4_duplicate_keys.2 [(strBytes "a", .integer 1), (strBytes "a", .integer 2)] (strBytes "a")

/-- C5: `byte_string` on a canonical decimal length `n` followed by `:` and
at least `n` bytes succeeds with exactly those `n` raw bytes and the rest as
remainder (the `n ≤ usize::MAX` hypothesis reflects that Rust slice lengths
are `usize`); it fails on empty input, when fewer than `n` bytes remain, and
when the length field does not start with a decimal digit. -/
theorem c5_byte_string :
    (∀ (n : Nat) (s rest : List Nat), s.length = n → n ≤ usizeMax →
      byte_string (natDigits n ++ 58 :: (s ++ rest)) = some (rest, s)) ∧
    byte_string [] = none ∧
    (∀ (n : Nat) (s : List Nat), s.length < n →
      byte_string (natDigits n ++ 58 :: s) = none) ∧
    (∀ (b : Nat) (t : List Nat), isDigitB b = false → byte_string (b :: t) = none) :=
  ⟨byte_string_natDigits, rfl, byte_string_insufficient,
   fun _ t hb => byte_string_head_fail t hb⟩

/-- C5 (witness): C5 at `4:spam` + remainder, a too-short payload, and a
non-digit length field. -/
theorem c5_byte_string_witness :
    byte_string (natDigits 4 ++ 58 :: (strBytes "spam" ++ strBytes "x")) =
      some (strBytes "x", strBytes "spam") ∧
    byte_string (natDigits 10 ++ 58 :: strBytes "hello") = none ∧
    byte_string (120 :: strBytes "abc") = none :=
  ⟨c5_byte_string.1 4 (strBytes "spam") (strBytes "x") (by decide) (by decide),
   c5_byte_string.2.2.1 10 (strBytes "hello") (by decide),
   c5_byte_string.2.2.2 120 (strBytes "abc") (by decide)⟩

/-- C6: leading zeros are rejected in both the integer digits and the
byte-string length field, negative zero is rejected, while the single-digit
`0` forms `0:` and `i0e` parse. -/
theorem c6_leading_zero :
    parse_bencode (strBytes "04:spam") = none ∧
    parse_bencode (strBytes "i01e") = none ∧
    parse_bencode (strBytes "i00123e") = none ∧
    parse_bencode (strBytes "i-0e") = none ∧
    parse_bencode (strBytes "0:") = some ([], .byteString []) ∧
    parse_bencode (strBytes "i0e") = some ([], .integer 0) :=
  ⟨rfl, rfl, rfl, rfl, rfl, rfl⟩

/-- C7: `encode_to_string` always returns `Ok` — the text it produces is the
lossy UTF-8 decoding of the canonical bytes (which coincides with the strict
decoding whenever the bytes are valid UTF-8); on the non-UTF-8 encoding of
the byte string `C0 7F` it substitutes the replacement character U+FFFD
rather than failing. -/
theorem c7_encode_to_string :
    (∀ v : BencodeValue, encode_to_string v = .ok (utf8Lossy (encBytes v))) ∧
    utf8DecodeStrict (encBytes (.byteString [192, 127])) = none ∧
    encode_to_string (.byteString [192, 127]) = .ok [50, 58, 65533, 127] :=
  ⟨encode_to_string_ok, rfl, rfl⟩

/-- C7 (witness): `encode_to_string` is `Ok` at a concrete value. -/
theorem c7_encode_to_string_witness :
    encode_to_string (.integer 1) = .ok (utf8Lossy (encBytes (.integer 1))) :=
  c7_encode_to_string.1 (.integer 1)

/-- C8: `encode_to_bytes` returns `Ok` for every value, and the `u64`
conversion path fails exactly when the value exceeds `isize::MAX`, reporting
an error rather than truncating; below that bound it encodes the integer. -/
theorem c8_encode_errors :
    (∀ v : BencodeValue, encode_to_bytes v = .ok (encBytes v)) ∧
    (∀ n : Nat, n ≤ usizeMax →
      (isizeMax < n → u64_to_bencode n =
        .error (.customError "Integer too large for bencode encoding")) ∧
      (n ≤ isizeMax → u64_to_bencode n = .ok (encBytes (.integer (n : Int))))) := by
  refine ⟨encode_to_bytes_ok, ?_⟩
  intro n hn
  constructor
  · intro hgt
    rw [u64_to_bencode, if_pos hgt]
  · intro hle
    rw [u64_to_bencode, if_neg (by omega), encode_to_bytes_ok]

/-- C8 (witness): the `u64` path errors at `2^63 > isize::MAX` and succeeds
at `7`. -/
theorem c8_encode_errors_witness :
    u64_to_bencode (2 ^ 63) =
      .error (.customError "Integer too large for bencode encoding") ∧
    u64_to_bencode 7 = .ok (encBytes (.integer (7 : Int))) :=
  ⟨(c8_encode_errors.2 (2 ^ 63) (by decide)).1 (by decide),
   (c8_encode_errors.2 7 (by decide)).2 (by decide)⟩

/-- C9: `parse_bencode` does not require the whole input to be consumed: the
trailing bytes come back as the remainder — `4:spamextra` parses to the byte
string `spam` with remainder `extra`, and in general any well-formed value's
encoding followed by arbitrary trailing bytes parses to that value with
exactly those bytes as remainder. -/
theorem c9_partial_consumption :
    parse_bencode (strBytes "4:spamextra") =
      some (strBytes "extra", .byteString (strBytes "spam")) ∧
    (∀ (v : BencodeValue) (rest : List Nat), wfV v = true →
      parse_bencode (encBytes v ++ rest) = some (rest, v)) := by
  refine ⟨rfl, ?_⟩
  intro v rest hwf
  rw [parse_bencode]
  refine roundtripV v hwf ((encBytes v ++ rest).length + 1) rest ?_
  simp [List.length_append]
  omega

/-- C9 (witness): trailing bytes survive as the remainder at a concrete
value. -/
theorem c9_partial_consumption_witness :
    parse_bencode (encBytes (.integer 5) ++ strBytes "later") =
      some (strBytes "later", .integer 5) :=
  c9_partial_consumption.2 (.integer 5) (strBytes "later") (by decide)

/-- C10: every parser that succeeds consumed a nonempty prefix of its input:
the remainder is a contiguous suffix, the consumed prefix has length
`input.length - remainder.length`, and the parsed value is produced entirely
from that prefix — re-running the parser on the same prefix followed by any
other bytes succeeds with the same value and the new bytes as remainder. -/
theorem c10_prefix_consumption :
    (∀ (input rem : List Nat) (v : BencodeValue), parse_bencode input = some (rem, v) →
      ∃ pre, pre ≠ [] ∧ input = pre ++ rem ∧ pre.length = input.length - rem.length ∧
        ∀ rest, parse_bencode (pre ++ rest) = some (rest, v)) ∧
    (∀ (input rem : List Nat) (i : Int), integer input = some (rem, i) →
      ∃ pre, pre ≠ [] ∧ input = pre ++ rem ∧ pre.length = input.length - rem.length ∧
        ∀ rest, integer (pre ++ rest) = some (rest, i)) ∧
    (∀ (input rem s : List Nat), byte_string input = some (rem, s) →
      ∃ pre, pre ≠ [] ∧ input = pre ++ rem ∧ pre.length = input.length - rem.length ∧
        ∀ rest, byte_string (pre ++ rest) = some (rest, s)) ∧
    (∀ (input rem : List Nat) (vs : List BencodeValue), list input = some (rem, vs) →
      ∃ pre, pre ≠ [] ∧ input = pre ++ rem ∧ pre.length = input.length - rem.length ∧
        ∀ rest, list (pre ++ rest) = some (rest, vs)) ∧
    (∀ (input rem : List Nat) (ps : List (List Nat × BencodeValue)),
      dictionary input = some (rem, ps) →
      ∃ pre, pre ≠ [] ∧ input = pre ++ rem ∧ pre.length = input.length - rem.length ∧
        ∀ rest, dictionary (pre ++ rest) = some (rest, ps)) := by
  refine ⟨?_, ?_, ?_, ?_, ?_⟩
  · intro input rem v h
    rw [parse_bencode] at h
    obtain ⟨pre, hne, hsh⟩ := bencodeValueF_suffix h
    subst hsh
    refine ⟨pre, hne, rfl, by simp [List.length_append], ?_⟩
    intro rest
    exact parse_bencode_translate
      (show parse_bencode (pre ++ rem) = some (rem, v) by rw [parse_bencode]; exact h)
  · intro input rem i h
    obtain ⟨pre, hne, hsh⟩ := integer_suffix h
    subst hsh
    exact ⟨pre, hne, rfl, by simp [List.length_append],
      fun rest => integer_translate rest h⟩
  · intro input rem s h
    obtain ⟨pre, hne, hsh⟩ := byte_string_suffix h
    subst hsh
    exact ⟨pre, hne, rfl, by simp [List.length_append],
      fun rest => byte_string_translate rest h⟩
  · intro input rem vs h
    obtain ⟨pre, hne, hsh⟩ := list_suffix h
    subst hsh
    exact ⟨pre, hne, rfl, by simp [List.length_append],
      fun rest => list_translate h⟩
  · intro input rem ps h
    obtain ⟨pre, hne, hsh⟩ := dictionary_suffix h
    subst hsh
    exact ⟨pre, hne, rfl, by simp [List.length_append],
      fun rest => dictionary_translate h⟩

/-- C10 (witness): the consumed-prefix property at a concrete parse with a
nonempty remainder. -/
theorem c10_prefix_consumption_witness :
    ∃ pre, pre ≠ [] ∧ strBytes "i42exx" = pre ++ strBytes "xx" ∧
      pre.length = (strBytes "i42exx").length - (strBytes "xx").length ∧
      ∀ rest, parse_bencode (pre ++ rest) = some (rest, .integer 42) :=
  c10_prefix_consumption.1 (strBytes "i42exx") (strBytes "xx") (.integer 42) rfl
